import Mathlib

/-!
URL shortener: code generator, store/cache service and rate limiter.

A shallow embedding of the Go packages `internal/util`, `internal/repository`,
`internal/service` and `internal/handler` (rate limiter), followed by theorems
about them.

Conventions of the embedding.
* A Go `string` is a Lean `String`; where the code looks at bytes (`[]byte(original)`)
  the UTF-8 encoding is taken by `goBytes`.
* `uint64` values are `Nat` below `2 ^ 64`, `int`/`int64` values are `Int` with
  `wrapInt64` where the code can overflow; non-negative `int` arguments that index
  or size something (`length`, `attempt`) are `Nat`.
* Stateful code is written in state-passing style: an operation returns its result
  together with the new value of the receiver.
* Library code the repository calls (SHA-256, the `database/sql` table, the Redis
  key space) is modelled after its documented behaviour.
-/

namespace URLShortener

/-! ## crypto/sha256 (FIPS 180-4), on lists of bytes -/

namespace sha256

def K : List Nat := [
  0x428a2f98, 0x71374491, 0xb5c0fbcf, 0xe9b5dba5, 0x3956c25b, 0x59f111f1, 0x923f82a4, 0xab1c5ed5,
  0xd807aa98, 0x12835b01, 0x243185be, 0x550c7dc3, 0x72be5d74, 0x80deb1fe, 0x9bdc06a7, 0xc19bf174,
  0xe49b69c1, 0xefbe4786, 0x0fc19dc6, 0x240ca1cc, 0x2de92c6f, 0x4a7484aa, 0x5cb0a9dc, 0x76f988da,
  0x983e5152, 0xa831c66d, 0xb00327c8, 0xbf597fc7, 0xc6e00bf3, 0xd5a79147, 0x06ca6351, 0x14292967,
  0x27b70a85, 0x2e1b2138, 0x4d2c6dfc, 0x53380d13, 0x650a7354, 0x766a0abb, 0x81c2c92e, 0x92722c85,
  0xa2bfe8a1, 0xa81a664b, 0xc24b8b70, 0xc76c51a3, 0xd192e819, 0xd6990624, 0xf40e3585, 0x106aa070,
  0x19a4c116, 0x1e376c08, 0x2748774c, 0x34b0bcb5, 0x391c0cb3, 0x4ed8aa4a, 0x5b9cca4f, 0x682e6ff3,
  0x748f82ee, 0x78a5636f, 0x84c87814, 0x8cc70208, 0x90befffa, 0xa4506ceb, 0xbef9a3f7, 0xc67178f2]

/-- Reduction to a 32-bit word. -/
def w32 (x : Nat) : Nat := x % 4294967296

def rotr (x n : Nat) : Nat := w32 ((x >>> n) ||| (x <<< (32 - n)))

def bsig0 (x : Nat) : Nat := rotr x 2 ^^^ rotr x 13 ^^^ rotr x 22

def bsig1 (x : Nat) : Nat := rotr x 6 ^^^ rotr x 11 ^^^ rotr x 25

def ssig0 (x : Nat) : Nat := rotr x 7 ^^^ rotr x 18 ^^^ (x >>> 3)

def ssig1 (x : Nat) : Nat := rotr x 17 ^^^ rotr x 19 ^^^ (x >>> 10)

def ch (x y z : Nat) : Nat := (x &&& y) ^^^ ((4294967295 - x) &&& z)

def maj (x y z : Nat) : Nat := (x &&& y) ^^^ (x &&& z) ^^^ (y &&& z)

/-- The eight working variables / chaining values. -/
structure State where
  a : Nat
  b : Nat
  c : Nat
  d : Nat
  e : Nat
  f : Nat
  g : Nat
  h : Nat

def init : State :=
  ⟨0x6a09e667, 0xbb67ae85, 0x3c6ef372, 0xa54ff53a, 0x510e527f, 0x9b05688c, 0x1f83d9ab, 0x5be0cd19⟩

/-- Big-endian value of a list of bytes. -/
def beValue (bs : List Nat) : Nat := bs.foldl (fun acc b => acc * 256 + b) 0

/-- The `n` low-order bytes of `x`, most significant first. -/
def beBytes : Nat → Nat → List Nat
  | 0, _ => []
  | n + 1, x => (x / 256 ^ n) % 256 :: beBytes n x

/-- The first `n` big-endian 32-bit words of a block. -/
def blockWords : Nat → List Nat → List Nat
  | 0, _ => []
  | n + 1, bs => beValue (bs.take 4) :: blockWords n (bs.drop 4)

/-- Message schedule extension; `w` is kept most recent word first. -/
def extend : Nat → List Nat → List Nat
  | 0, w => w
  | n + 1, w =>
    extend n (w32 (ssig1 (w.getD 1 0) + w.getD 6 0 + ssig0 (w.getD 14 0) + w.getD 15 0) :: w)

def round (s : State) (kw : Nat × Nat) : State :=
  let t1 := w32 (s.h + bsig1 s.e + ch s.e s.f s.g + kw.1 + kw.2)
  let t2 := w32 (bsig0 s.a + maj s.a s.b s.c)
  ⟨w32 (t1 + t2), s.a, s.b, s.c, w32 (s.d + t1), s.e, s.f, s.g⟩

def compress (s : State) (block : List Nat) : State :=
  let w := (extend 48 (blockWords 16 block).reverse).reverse
  let t := (K.zip w).foldl round s
  ⟨w32 (s.a + t.a), w32 (s.b + t.b), w32 (s.c + t.c), w32 (s.d + t.d),
   w32 (s.e + t.e), w32 (s.f + t.f), w32 (s.g + t.g), w32 (s.h + t.h)⟩

def pad (msg : List Nat) : List Nat :=
  msg ++ [0x80] ++ List.replicate ((119 - msg.length % 64) % 64) 0 ++ beBytes 8 (msg.length * 8)

def blocks : Nat → State → List Nat → State
  | 0, s, _ => s
  | n + 1, s, bs => blocks n (compress s (bs.take 64)) (bs.drop 64)

/-- The digest `sha256.Sum256(data)`, a `[32]byte`. -/
def Sum256 (data : List Nat) : List Nat :=
  let s := blocks ((pad data).length / 64) init (pad data)
  beBytes 4 s.a ++ beBytes 4 s.b ++ beBytes 4 s.c ++ beBytes 4 s.d ++
  beBytes 4 s.e ++ beBytes 4 s.f ++ beBytes 4 s.g ++ beBytes 4 s.h

end sha256

/-! ## internal/util -/

/-- UTF-8 encoding of one code point. -/
def utf8Encode (c : Nat) : List Nat :=
  if c < 0x80 then [c]
  else if c < 0x800 then [0xC0 + c / 64, 0x80 + c % 64]
  else if c < 0x10000 then [0xE0 + c / 4096, 0x80 + c / 64 % 64, 0x80 + c % 64]
  else [0xF0 + c / 262144, 0x80 + c / 4096 % 64, 0x80 + c / 64 % 64, 0x80 + c % 64]

/-- The conversion `[]byte(s)`. -/
def goBytes (s : String) : List Nat := s.data.flatMap (fun c => utf8Encode c.toNat)

def base62Chars : String := "0123456789abcdefghijklmnopqrstuvwxyzABCDEFGHIJKLMNOPQRSTUVWXYZ"

/-- The byte `base62Chars[rem]`. -/
def base62Char (rem : Nat) : Char := base62Chars.data.getD rem '0'

/-- The loop `for num > 0 { ... }` of `base62Encode`; `b` is the buffer built so far.
Each iteration replaces `num` by `num / 62`, so `fuel = num` iterations suffice. -/
def base62Loop : Nat → Nat → List Char → List Char
  | 0, _, b => b
  | fuel + 1, num, b =>
    if num > 0 then base62Loop fuel (num / 62) (base62Char (num % 62) :: b) else b

def base62Encode (num : Nat) : String :=
  if num = 0 then "0" else String.mk (base62Loop num num [])

/-- The call `binary.BigEndian.Uint64(slice)`. -/
def bigEndianUint64 (slice : List Nat) : Nat := sha256.beValue slice

/-- The conversion `uint64(math.Pow(62, float64(length)))` for `length < 10`.
The float64 power is exact there: `62 ^ 9 = 2 ^ 9 * 31 ^ 9` and `31 ^ 9 < 2 ^ 53`. -/
def pow62 (length : Nat) : Nat := 62 ^ length % 2 ^ 64

/-- The value encoded by `DeterministicShortCode`: the 8-byte window of the digest
at offset `attempt % (32 - 8 + 1)`, reduced modulo `62 ^ length` when `length < 10`. -/
def selectedValue (original : String) (length attempt : Nat) : Nat :=
  let h := sha256.Sum256 (goBytes original)
  let offset := attempt % (32 - 8 + 1)
  let slice := (h.drop offset).take 8
  let num := bigEndianUint64 slice
  if length ≥ 10 then num else num % pow62 length

def DeterministicShortCode (original : String) (length attempt : Nat) : String :=
  let code := base62Encode (selectedValue original length attempt)
  if code.length > length then
    String.mk (code.data.take length)
  else if code.length < length then
    String.mk (List.replicate (length - code.length) '0') ++ code
  else code

/-- Horner evaluation of a list of base-62 digit characters, most significant first,
continuing from `acc`; a character stands for its position in `base62Chars`. -/
def valueFold (acc : Nat) (cs : List Char) : Nat :=
  cs.foldl (fun acc c => acc * 62 + base62Chars.data.indexOf c) acc

/-- Spec-side reading of a code as a base-62 numeral, most significant digit first. -/
def base62Value (code : String) : Nat := valueFold 0 code.data

/-- The unsigned 64-bit big-endian integer formed by the 8 digest bytes starting at
offset `attempt mod 25` of the 32-byte digest of `original` (spec-side wording). -/
def digestWindow (original : String) (attempt : Nat) : Nat :=
  let h := sha256.Sum256 (goBytes original)
  let o := attempt % 25
  (List.range 8).foldl (fun acc i => acc * 256 + h.getD (o + i) 0) 0

/-- Go's `unicode.IsSpace`. -/
def isSpace (c : Char) : Bool :=
  let n := c.toNat
  (0x09 ≤ n ∧ n ≤ 0x0D) ∨ n = 0x20 ∨ n = 0x85 ∨ n = 0xA0 ∨ n = 0x1680 ∨
  (0x2000 ≤ n ∧ n ≤ 0x200A) ∨ n = 0x2028 ∨ n = 0x2029 ∨ n = 0x202F ∨ n = 0x205F ∨ n = 0x3000

/-- Go's `strings.TrimSpace`. -/
def TrimSpace (s : String) : String :=
  String.mk ((s.data.dropWhile isSpace).reverse.dropWhile isSpace).reverse

/-- The part of `net/url.URL` the code reads. -/
structure URL where
  Scheme : String

/-- `parseRequestURI` stands for `net/url.ParseRequestURI` (`none` for an error). -/
def ValidateURL (parseRequestURI : String → Option URL) (raw : String) : Bool :=
  match parseRequestURI (TrimSpace raw) with
  | none => false
  | some u =>
    if u.Scheme ≠ "http" ∧ u.Scheme ≠ "https" then false
    else true

/-- A small stand-in for `net/url.ParseRequestURI`, used to instantiate the parameter
on concrete inputs: the scheme is the run of letters before the first `:` (lower-cased),
and what follows must begin with `/`. -/
def schemeOf (raw : String) : Option URL :=
  let letters := raw.data.takeWhile Char.isAlpha
  match raw.data.dropWhile Char.isAlpha with
  | ':' :: '/' :: _ => if letters = [] then none else some ⟨String.mk (letters.map Char.toLower)⟩
  | _ => none

/-! ## internal/model -/

structure URLMapping where
  ID : Int
  ShortCode : String
  OriginalURL : String
  ClickCount : Int
  CreatedAt : Int
  LastAccessedAt : Option Int
deriving DecidableEq

/-! ## Machine integers -/

def maxInt64 : Int := 9223372036854775807

def minInt64 : Int := -9223372036854775808

/-- Two's-complement wrap-around of Go `int` (64-bit) arithmetic. -/
def wrapInt64 (x : Int) : Int := (x + 9223372036854775808) % 18446744073709551616 - 9223372036854775808

/-! ## internal/repository -/

/-- Errors a `database/sql` call can return. -/
inductive DBError
  | noRows
  | uniqueViolation
  | outOfRange
  | unavailable
deriving DecidableEq

/-- Modelled from the spec: the table `url_mappings` behind `Repo.DB`, whose declaration is
not among the sources. `rows` are in insertion order, `short_code` and `original_url` are
unique, `id` is taken from the sequence `nextID`, `click_count` starts at 0, `created_at`
defaults to `now`. `online = false` stands for a connection that fails every call
(unreachable server, cancelled context). -/
structure Repo where
  rows : List URLMapping
  nextID : Int
  now : Int
  online : Bool

def NewRepo : Repo := { rows := [], nextID := 1, now := 0, online := true }

def Repo.GetByShortCode (r : Repo) (code : String) : Except DBError URLMapping :=
  if r.online = false then .error .unavailable
  else
    match r.rows.find? (fun m => m.ShortCode = code) with
    | some m => .ok m
    | none => .error .noRows

def Repo.GetByOriginalURL (r : Repo) (original : String) : Except DBError URLMapping :=
  if r.online = false then .error .unavailable
  else
    match r.rows.find? (fun m => m.OriginalURL = original) with
    | some m => .ok m
    | none => .error .noRows

/-- A failed `INSERT` leaves the table as it was, so only success returns a new table. -/
def Repo.Create (r : Repo) (code original : String) : Except DBError (URLMapping × Repo) :=
  if r.online = false then .error .unavailable
  else if r.rows.any (fun m => m.ShortCode = code ∨ m.OriginalURL = original) then
    .error .uniqueViolation
  else
    let m : URLMapping :=
      { ID := r.nextID, ShortCode := code, OriginalURL := original, CreatedAt := r.now,
        ClickCount := 0, LastAccessedAt := none }
    .ok (m, { r with rows := r.rows ++ [m], nextID := r.nextID + 1 })

/-- The `UPDATE` of one click flush; `none` is a nil error. -/
def Repo.IncrementClickBy (r : Repo) (code : String) (delta : Int) : Option DBError × Repo :=
  if r.online = false then (some .unavailable, r)
  else if r.rows.any (fun m => m.ShortCode = code ∧
      (m.ClickCount + delta > maxInt64 ∨ m.ClickCount + delta < minInt64)) then
    (some .outOfRange, r)
  else
    (none, { r with rows := r.rows.map (fun m =>
      if m.ShortCode = code then
        { m with ClickCount := m.ClickCount + delta, LastAccessedAt := some r.now }
      else m) })

/-- `ORDER BY created_at DESC LIMIT limit OFFSET offset`. -/
def Repo.List (r : Repo) (offset limit : Int) : Except DBError (List URLMapping) :=
  if r.online = false then .error .unavailable
  else if offset < 0 ∨ limit < 0 then .error .outOfRange
  else
    .ok (((r.rows.insertionSort (fun a b => a.CreatedAt ≥ b.CreatedAt)).drop offset.toNat).take
      limit.toNat)

/-- The store's click count for a code (0 when the code has no row). -/
def Repo.clicks (r : Repo) (code : String) : Int :=
  match r.rows.find? (fun m => m.ShortCode = code) with
  | some m => m.ClickCount
  | none => 0

/-! ## The Redis key space (`github.com/redis/go-redis/v9`) -/

inductive RedisError
  | nil
  | notInteger
  | unavailable
deriving DecidableEq

/-- A stored value: a string, or an integer kept by `INCR`. -/
inductive RedisValue
  | str (s : String)
  | int (n : Int)
deriving DecidableEq

structure RedisEntry where
  value : RedisValue
  expiration : Int
deriving DecidableEq

/-- The key space of the client; `online = false` makes every command fail. -/
structure Redis where
  kv : String → Option RedisEntry
  online : Bool

def Redis.empty (online : Bool) : Redis := { kv := fun _ => none, online := online }

/-- Decimal reading of a string as a signed 64-bit integer (`strconv.ParseInt(s, 10, 64)`). -/
def parseInt64 (s : String) : Option Int :=
  let body := match s.data with
    | '-' :: r => r
    | '+' :: r => r
    | r => r
  if body = [] ∨ ¬ body.all Char.isDigit then none
  else
    let n : Int := body.foldl (fun acc c => acc * 10 + (c.toNat - 48 : Nat)) (0 : Nat)
    let v : Int := if s.data.head? = some '-' then -n else n
    if v < minInt64 ∨ v > maxInt64 then none else some v

def Redis.Get (rc : Redis) (key : String) : Except RedisError String :=
  if rc.online = false then .error .unavailable
  else
    match rc.kv key with
    | none => .error .nil
    | some e =>
      match e.value with
      | .str s => .ok s
      | .int n => .ok (toString n)

/-- The call chain `Get(ctx, key).Int64()`. -/
def Redis.GetInt64 (rc : Redis) (key : String) : Except RedisError Int :=
  if rc.online = false then .error .unavailable
  else
    match rc.kv key with
    | none => .error .nil
    | some e =>
      match e.value with
      | .int n => .ok n
      | .str s =>
        match parseInt64 s with
        | some n => .ok n
        | none => .error .notInteger

def Redis.Set (rc : Redis) (key value : String) (expiration : Int) : Option RedisError × Redis :=
  if rc.online = false then (some .unavailable, rc)
  else
    (none, { rc with kv := fun k =>
      if k = key then some (RedisEntry.mk (.str value) expiration) else rc.kv k })

/-- The integer `INCR` starts from, with the expiration it keeps: 0 for a missing key, the
stored integer, or a string in canonical decimal form; `none` when the value is no integer. -/
def incrBase (e : Option RedisEntry) : Option (Int × Int) :=
  match e with
  | none => some (0, 0)
  | some e =>
    match e.value with
    | .int n => some (n, e.expiration)
    | .str s =>
      match parseInt64 s with
      | some n => if toString n = s then some (n, e.expiration) else none
      | none => none

def Redis.Incr (rc : Redis) (key : String) : Except RedisError Int × Redis :=
  if rc.online = false then (.error .unavailable, rc)
  else
    match incrBase (rc.kv key) with
    | none => (.error .notInteger, rc)
    | some (n, expiration) =>
      if n + 1 > maxInt64 then (.error .notInteger, rc)
      else
        let kv : String → Option RedisEntry := fun k =>
          if k = key then some (RedisEntry.mk (.int (n + 1)) expiration) else rc.kv k
        (.ok (n + 1), { rc with kv := kv })

def Redis.Del (rc : Redis) (key : String) : Option RedisError × Redis :=
  if rc.online = false then (some .unavailable, rc)
  else (none, { rc with kv := fun k => if k = key then none else rc.kv k })

deriving instance DecidableEq for Except

/-! ## internal/service -/

/-- An `error` value: one made by `errors.New`, or one passed up from the store. -/
inductive Error
  | msg (text : String)
  | db (e : DBError)
deriving DecidableEq

structure Service where
  Repo : Repo
  Redis : Option Redis
  ShortLen : Nat

def NewService (r : Repo) (rc : Option Redis) : Service :=
  { Repo := r, Redis := rc, ShortLen := 8 }

/-- One nanosecond is the unit of `time.Duration`. -/
def hour : Int := 3600000000000

/-- The loop `for attempt := 0; attempt < 16; attempt++` of `CreateShort`, with `n`
iterations left. -/
def Service.createLoop (original : String) : Nat → Nat → Service → Except Error URLMapping × Service
  | 0, _, s => (.error (.msg "failed to generate a unique short code"), s)
  | n + 1, attempt, s =>
    let code := DeterministicShortCode original s.ShortLen attempt
    match s.Repo.GetByShortCode code with
    | .ok m =>
      if m.OriginalURL = original then (.ok m, s)
      else Service.createLoop original n (attempt + 1) s
    | .error _ =>
      match s.Repo.Create code original with
      | .error _ => Service.createLoop original n (attempt + 1) s
      | .ok (created, repo) =>
        match s.Redis with
        | some rc =>
          (.ok created,
            { s with Repo := repo, Redis := some (rc.Set ("short:" ++ code) original 0).2 })
        | none => (.ok created, { s with Repo := repo })

def Service.CreateShort (parseRequestURI : String → Option URL) (s : Service)
    (original : String) : Except Error URLMapping × Service :=
  if ValidateURL parseRequestURI original = false then (.error (.msg "invalid url"), s)
  else
    match s.Repo.GetByOriginalURL original with
    | .ok existing => (.ok existing, s)
    | .error _ => Service.createLoop original 16 0 s

/-- The store lookup of `Resolve` after a cache miss. -/
def Service.resolveFromStore (s : Service) (code : String) :
    Except Error String × Service × List String :=
  match s.Repo.GetByShortCode code with
  | .error err => (.error (.db err), s, [])
  | .ok m =>
    match s.Redis with
    | some rc =>
      let rc1 := (rc.Set ("short:" ++ code) m.OriginalURL (24 * hour)).2
      let rc2 := (rc1.Incr ("clicks:" ++ code)).2
      (.ok m.OriginalURL, { s with Redis := some rc2 }, [code])
    | none => (.ok m.OriginalURL, s, [code])

/-- `Resolve` returns its result, the new state, and the codes for which it started a
`go s.persistClick(context.Background(), code)`. -/
def Service.Resolve (s : Service) (code : String) :
    Except Error String × Service × List String :=
  match s.Redis with
  | some rc =>
    match rc.Get ("short:" ++ code) with
    | .ok val =>
      (.ok val, { s with Redis := some (rc.Incr ("clicks:" ++ code)).2 }, [code])
    | .error _ => s.resolveFromStore code
  | none => s.resolveFromStore code

def Service.persistClick (s : Service) (code : String) : Service :=
  let fallback : Service := { s with Repo := (s.Repo.IncrementClickBy code 1).2 }
  match s.Redis with
  | some rc =>
    match rc.GetInt64 ("clicks:" ++ code) with
    | .ok cnt =>
      if cnt > 0 then
        { s with Repo := (s.Repo.IncrementClickBy code cnt).2,
                 Redis := some (rc.Del ("clicks:" ++ code)).2 }
      else fallback
    | .error _ => fallback
  | none => fallback

def Service.List (s : Service) (page limit : Int) : Except DBError (List URLMapping) :=
  let page := if page < 1 then 1 else page
  let limit := if limit < 1 ∨ limit > 100 then 20 else limit
  let offset := wrapInt64 (wrapInt64 (page - 1) * limit)
  s.Repo.List offset limit

/-! ## Resolutions and detached flushes as atomic steps -/

/-- One atomic step of the service: a whole `Resolve(code)` call, or the run of the
pending `persistClick` goroutine at position `i` of the list of started goroutines. -/
inductive Event
  | resolve (code : String)
  | flush (i : Nat)

/-- The service together with the goroutines started by `Resolve` that have not run yet. -/
structure World where
  svc : Service
  pending : List String

/-- A step is refused (`none`) when it asks for a goroutine that was not started. -/
def World.step (w : World) : Event → Option World
  | .resolve code =>
    some { svc := (w.svc.Resolve code).2.1, pending := w.pending ++ (w.svc.Resolve code).2.2 }
  | .flush i =>
    match w.pending.get? i with
    | none => none
    | some code => some { svc := w.svc.persistClick code, pending := w.pending.eraseIdx i }

def World.run : World → List Event → Option World
  | w, [] => some w
  | w, e :: es =>
    match w.step e with
    | none => none
    | some w1 => World.run w1 es

/-! ## States reachable through the service's operations -/

/-- One operation of the service, or a change in the cache that the service does not
control: a key expires or is evicted, the cache becomes unreachable or reachable again. -/
inductive Step (parseRequestURI : String → Option URL) : Service → Service → Prop
  | createShort (s : Service) (original : String) :
      Step parseRequestURI s (s.CreateShort parseRequestURI original).2
  | resolve (s : Service) (code : String) : Step parseRequestURI s (s.Resolve code).2.1
  | persistClick (s : Service) (code : String) : Step parseRequestURI s (s.persistClick code)
  | expire (s : Service) (rc : Redis) (key : String) (h : s.Redis = some rc) :
      Step parseRequestURI s
        { s with Redis := some { rc with kv := fun k => if k = key then none else rc.kv k } }
  | cacheOnline (s : Service) (rc : Redis) (b : Bool) (h : s.Redis = some rc) :
      Step parseRequestURI s { s with Redis := some { rc with online := b } }
  | tick (s : Service) (t : Int) :
      Step parseRequestURI s { s with Repo := { s.Repo with now := t } }

/-- The states reachable from a new service over an empty table, with no cache or with an
empty cache (reachable or not). The store answers every call in these states: no
operation changes `Repo.online`, and it starts as `true`. -/
inductive Reachable (parseRequestURI : String → Option URL) : Service → Prop
  | init (cache : Option Bool) :
      Reachable parseRequestURI (NewService NewRepo (cache.map Redis.empty))
  | step (s t : Service) (hs : Reachable parseRequestURI s) (ht : Step parseRequestURI s t) :
      Reachable parseRequestURI t

/-! ## internal/handler: the rate limiter -/

/-- A bucket; `tokens` is a `float64` in the source and an exact rational here, `last` is
a `time.Time` in nanoseconds. -/
structure tokenBucket where
  tokens : ℚ
  last : Int

structure SimpleRateLimiter where
  buckets : String → Option tokenBucket
  rate : ℚ
  burst : ℚ

def NewSimpleRateLimiter : SimpleRateLimiter :=
  { buckets := fun _ => none, rate := 1, burst := 10 }

/-- The call `now.Sub(last).Seconds()`: the difference saturates at the range of a
`time.Duration` and is read in seconds. -/
def secondsSince (now last : Int) : ℚ :=
  (max minInt64 (min maxInt64 (now - last)) : Int) / 1000000000

/-- The bucket of `key` after the call: a new map entry, or the entry updated in place. -/
def SimpleRateLimiter.put (s : SimpleRateLimiter) (key : String) (b : tokenBucket) :
    SimpleRateLimiter :=
  { s with buckets := fun k => if k = key then some b else s.buckets k }

/-- `now` is the reading of `time.Now()` taken by the call. -/
def SimpleRateLimiter.Allow (s : SimpleRateLimiter) (now : Int) (key : String) :
    Bool × SimpleRateLimiter :=
  match s.buckets key with
  | none => (true, s.put key { tokens := s.burst - 1, last := now })
  | some b =>
    let elapsed := secondsSince now b.last
    let tokens := b.tokens + elapsed * s.rate
    let tokens := if tokens > s.burst then s.burst else tokens
    if tokens ≥ 1 then (true, s.put key { tokens := tokens - 1, last := now })
    else (false, s.put key { tokens := tokens, last := now })

/-- The results of `n` successive calls `Allow(key)`, each reading the clock at `now`. -/
def SimpleRateLimiter.allowN (now : Int) (key : String) :
    Nat → SimpleRateLimiter → List Bool × SimpleRateLimiter
  | 0, s => ([], s)
  | n + 1, s =>
    let r := s.Allow now key
    let rest := SimpleRateLimiter.allowN now key n r.2
    (r.1 :: rest.1, rest.2)

/-! ## Invariants of the service state -/

/-- No two rows share a short code or an original URL. -/
def UniqueRows (rows : List URLMapping) : Prop :=
  rows.Pairwise (fun a b => a.ShortCode ≠ b.ShortCode ∧ a.OriginalURL ≠ b.OriginalURL)

/-- Every `short:` entry of the cache holds the original URL of the row with that code. -/
def CacheConsistent (s : Service) : Prop :=
  ∀ rc, s.Redis = some rc → ∀ code e, rc.kv ("short:" ++ code) = some e →
    ∃ m ∈ s.Repo.rows, m.ShortCode = code ∧ e.value = .str m.OriginalURL

/-- What holds in every reachable state: the store answers, its rows are unique in code
and original, and the cache agrees with the store. -/
structure Inv (s : Service) : Prop where
  online : s.Repo.online = true
  unique : UniqueRows s.Repo.rows
  cache : CacheConsistent s

/-- Every row of `rows` is still present in `rows2` with the same code and original. -/
def RowsKept (rows rows2 : List URLMapping) : Prop :=
  ∀ m ∈ rows, ∃ m2 ∈ rows2, m2.ShortCode = m.ShortCode ∧ m2.OriginalURL = m.OriginalURL

/-- The codes held by the store are codes the service issues: the service generates at
length 8, and every row carries 8 characters of `base62Chars`. -/
def CodesWellFormed (s : Service) : Prop :=
  s.ShortLen = 8 ∧
  ∀ m ∈ s.Repo.rows, m.ShortCode.length = 8 ∧ ∀ c ∈ m.ShortCode.data, c ∈ base62Chars.data

/-! ## Concrete states used in the examples -/

/-- A new service over an empty table with an empty, reachable cache. -/
def freshService : Service := NewService NewRepo (some (Redis.empty true))

/-- A new service without cache whose store fails every call. -/
def offlineService : Service := NewService { NewRepo with online := false } none

/-- The state after `CreateShort("https://example.com/a")` on `freshService`. -/
def exampleService : Service := (freshService.CreateShort schemeOf "https://example.com/a").2

/-- A service without cache whose table maps each of the 16 candidates of
`https://example.com/a` (attempts 0 to 15, length 8) to some other original. -/
def crowdedService : Service :=
  NewService
    { rows := [
        ⟨1, "IPhmXSNu", "https://taken.example/0", 0, 0, none⟩,
        ⟨2, "kAVlNwvB", "https://taken.example/1", 0, 0, none⟩,
        ⟨3, "CN9wjUGl", "https://taken.example/2", 0, 0, none⟩,
        ⟨4, "l98szdlo", "https://taken.example/3", 0, 0, none⟩,
        ⟨5, "LzAoNAnq", "https://taken.example/4", 0, 0, none⟩,
        ⟨6, "KsSrtyxD", "https://taken.example/5", 0, 0, none⟩,
        ⟨7, "zJAGLnjK", "https://taken.example/6", 0, 0, none⟩,
        ⟨8, "Tz0T8DBW", "https://taken.example/7", 0, 0, none⟩,
        ⟨9, "YbcBSdrs", "https://taken.example/8", 0, 0, none⟩,
        ⟨10, "N0oNwTZY", "https://taken.example/9", 0, 0, none⟩,
        ⟨11, "qtoHPnue", "https://taken.example/10", 0, 0, none⟩,
        ⟨12, "22qSDNeQ", "https://taken.example/11", 0, 0, none⟩,
        ⟨13, "eiFlQesg", "https://taken.example/12", 0, 0, none⟩,
        ⟨14, "IVxbErGE", "https://taken.example/13", 0, 0, none⟩,
        ⟨15, "OeybMGKx", "https://taken.example/14", 0, 0, none⟩,
        ⟨16, "pe6H5x2g", "https://taken.example/15", 0, 0, none⟩],
      nextID := 17, now := 0, online := true }
    none

/-- The state after `CreateShort("https://example.com/2923470")` on `freshService`; the
attempt-0 candidate of `https://example.com/36685456` is the code of its one row. -/
def collidingService : Service :=
  (freshService.CreateShort schemeOf "https://example.com/2923470").2

/-- A service whose table holds one row for another URL and whose store fails every
call. -/
def outageService : Service :=
  NewService
    { rows := [⟨1, "VTHuPXBD", "https://example.com/2923470", 0, 0, none⟩],
      nextID := 2, now := 0, online := false }
    none

/-! ## Predicates on one iteration of the generation loop -/

/-- The candidate of `attempt` collided as the specification words it: it is already
mapped to a different original, or its create was rejected by a unique-constraint
conflict. -/
def Collided (s : Service) (original : String) (attempt : Nat) : Prop :=
  (∃ m, s.Repo.GetByShortCode (DeterministicShortCode original s.ShortLen attempt) = .ok m ∧
    m.OriginalURL ≠ original) ∨
  s.Repo.Create (DeterministicShortCode original s.ShortLen attempt) original =
    .error .uniqueViolation

/-- The iteration of `attempt` ends in `continue`: the candidate is already mapped to a
different original, or its lookup returned an error and its create returned an error,
whatever the errors are. -/
def AttemptContinues (s : Service) (original : String) (attempt : Nat) : Prop :=
  (∃ m, s.Repo.GetByShortCode (DeterministicShortCode original s.ShortLen attempt) = .ok m ∧
    m.OriginalURL ≠ original) ∨
  ((∃ e, s.Repo.GetByShortCode (DeterministicShortCode original s.ShortLen attempt) =
      .error e) ∧
    ∃ e, s.Repo.Create (DeterministicShortCode original s.ShortLen attempt) original =
      .error e)

/-! ## Facts about the code generator -/

theorem base62Loop_eq (fuel : Nat) : ∀ (num : Nat) (b : List Char), num ≤ fuel →
    base62Loop fuel num b = ((Nat.digits 62 num).reverse.map base62Char) ++ b := by
  induction fuel with
  | zero =>
    intro num b h
    have h0 : num = 0 := by omega
    subst h0
    simp [base62Loop]
  | succ fuel ih =>
    intro num b h
    by_cases hn : num > 0
    · have hd : Nat.digits 62 num = (num % 62) :: Nat.digits 62 (num / 62) :=
        Nat.digits_def' (by norm_num) hn
      have hle : num / 62 ≤ fuel := by omega
      simp only [base62Loop, hn, if_true]
      rw [ih (num / 62) _ hle, hd]
      simp
    · have h0 : num = 0 := by omega
      subst h0
      simp [base62Loop]

theorem base62Encode_data (num : Nat) (h : num ≠ 0) :
    (base62Encode num).data = (Nat.digits 62 num).reverse.map base62Char := by
  simp [base62Encode, h, base62Loop_eq num num [] (le_refl _)]

theorem base62Encode_zero : base62Encode 0 = "0" := by
  simp [base62Encode]

theorem base62Encode_length (num : Nat) (h : num ≠ 0) :
    (base62Encode num).length = (Nat.digits 62 num).length := by
  simp [String.length, base62Encode_data num h]

theorem base62Encode_length_pos (num : Nat) : 1 ≤ (base62Encode num).length := by
  by_cases h : num = 0
  · subst h
    rw [base62Encode_zero]
    decide
  · rw [base62Encode_length num h]
    have hne : Nat.digits 62 num ≠ [] := Nat.digits_ne_nil_iff_ne_zero.mpr h
    exact List.length_pos.mpr hne

theorem base62Encode_length_le (num k : Nat) (hk : 1 ≤ k) (h : num < 62 ^ k) :
    (base62Encode num).length ≤ k := by
  by_cases h0 : num = 0
  · subst h0
    rw [base62Encode_zero]
    exact hk
  · rw [base62Encode_length num h0]
    by_contra hc
    have hlen : k + 1 ≤ (Nat.digits 62 num).length := by omega
    have h1 : 62 ^ (Nat.digits 62 num).length ≤ 62 * num :=
      Nat.base_pow_length_digits_le 62 num (by norm_num) h0
    have h2 : 62 ^ (k + 1) ≤ 62 ^ (Nat.digits 62 num).length :=
      Nat.pow_le_pow_right (by norm_num) hlen
    have h3 : 62 ^ (k + 1) = 62 * 62 ^ k := by ring
    omega

theorem base62Encode_length_gt (num k : Nat) (h : 62 ^ k ≤ num) :
    k < (base62Encode num).length := by
  have h0 : num ≠ 0 := by
    intro hz
    subst hz
    have : 0 < 62 ^ k := Nat.pow_pos (by norm_num)
    omega
  rw [base62Encode_length num h0]
  by_contra hc
  have hlen : (Nat.digits 62 num).length ≤ k := by omega
  have h1 : num < 62 ^ (Nat.digits 62 num).length :=
    Nat.lt_base_pow_length_digits (by norm_num)
  have h2 : 62 ^ (Nat.digits 62 num).length ≤ 62 ^ k :=
    Nat.pow_le_pow_right (by norm_num) hlen
  omega

theorem base62Char_mem (d : Nat) (h : d < 62) : base62Char d ∈ base62Chars.data := by
  have hl : d < base62Chars.data.length := by
    have : base62Chars.data.length = 62 := by decide
    omega
  unfold base62Char
  rw [List.getD_eq_getElem _ _ hl]
  exact List.getElem_mem hl

theorem base62Encode_alphabet (num : Nat) :
    ∀ c ∈ (base62Encode num).data, c ∈ base62Chars.data := by
  by_cases h : num = 0
  · subst h
    rw [base62Encode_zero]
    decide
  · rw [base62Encode_data num h]
    intro c hc
    rw [List.mem_map] at hc
    obtain ⟨d, hd, rfl⟩ := hc
    rw [List.mem_reverse] at hd
    exact base62Char_mem d (Nat.digits_lt_base (by norm_num) hd)

theorem zero_mem_alphabet : '0' ∈ base62Chars.data := by decide

theorem beBytes_length (n x : Nat) : (sha256.beBytes n x).length = n := by
  induction n with
  | zero => rfl
  | succ n ih => simp [sha256.beBytes, ih]

theorem beBytes_lt (n x : Nat) : ∀ b ∈ sha256.beBytes n x, b < 256 := by
  induction n with
  | zero => simp [sha256.beBytes]
  | succ n ih =>
    intro b hb
    simp only [sha256.beBytes, List.mem_cons] at hb
    rcases hb with rfl | hb
    · exact Nat.mod_lt _ (by norm_num)
    · exact ih b hb

theorem Sum256_length (data : List Nat) : (sha256.Sum256 data).length = 32 := by
  simp [sha256.Sum256, beBytes_length]

theorem Sum256_lt (data : List Nat) : ∀ b ∈ sha256.Sum256 data, b < 256 := by
  intro b hb
  simp only [sha256.Sum256, List.mem_append] at hb
  rcases hb with ((((((hb | hb) | hb) | hb) | hb) | hb) | hb) | hb <;> exact beBytes_lt _ _ b hb

theorem beValue_foldl_lt (bs : List Nat) (hb : ∀ b ∈ bs, b < 256) :
    ∀ acc k, acc < 256 ^ k →
      bs.foldl (fun acc b => acc * 256 + b) acc < 256 ^ (k + bs.length) := by
  induction bs with
  | nil => intro acc k h; simpa using h
  | cons x xs ih =>
    intro acc k h
    have hx : x < 256 := hb x (List.mem_cons_self _ _)
    have hstep : acc * 256 + x < 256 ^ (k + 1) := by
      have : 256 ^ (k + 1) = 256 ^ k * 256 := by ring
      nlinarith
    have := ih (fun b hb2 => hb b (List.mem_cons_of_mem _ hb2)) (acc * 256 + x) (k + 1) hstep
    simp only [List.foldl_cons, List.length_cons]
    have he : k + (xs.length + 1) = k + 1 + xs.length := by omega
    rw [he]
    exact this

theorem beValue_lt (bs : List Nat) (hb : ∀ b ∈ bs, b < 256) :
    sha256.beValue bs < 256 ^ bs.length := by
  have := beValue_foldl_lt bs hb 0 0 (by norm_num)
  simpa [sha256.beValue] using this

/-- The slice `h[offset : offset+8]` lists the bytes at `offset`, ..., `offset + 7`. -/
theorem slice_eq_range (h : List Nat) (o : Nat) (ho : o + 8 ≤ h.length) :
    (h.drop o).take 8 = (List.range 8).map (fun i => h.getD (o + i) 0) := by
  apply List.ext_getElem
  · simp
    omega
  · intro i h1 h2
    have hi : i < 8 := by
      simp at h2
      exact h2
    have hoi : o + i < h.length := by omega
    simp [List.getElem_take, List.getElem_drop, List.getElem?_eq_getElem hoi]

theorem digestWindow_eq (original : String) (attempt : Nat) :
    digestWindow original attempt =
      bigEndianUint64 (((sha256.Sum256 (goBytes original)).drop (attempt % (32 - 8 + 1))).take 8) := by
  have hlen := Sum256_length (goBytes original)
  have ho : attempt % 25 + 8 ≤ (sha256.Sum256 (goBytes original)).length := by
    rw [hlen]
    have := Nat.mod_lt attempt (show 25 > 0 by norm_num)
    omega
  simp only [digestWindow, bigEndianUint64, sha256.beValue]
  rw [show (32 - 8 + 1) = 25 from rfl, slice_eq_range _ _ ho, List.foldl_map]

theorem digestWindow_lt (original : String) (attempt : Nat) :
    digestWindow original attempt < 2 ^ 64 := by
  rw [digestWindow_eq]
  have hlen := Sum256_length (goBytes original)
  have hm := Nat.mod_lt attempt (show 25 > 0 by norm_num)
  have hb : ∀ b ∈ ((sha256.Sum256 (goBytes original)).drop (attempt % (32 - 8 + 1))).take 8,
      b < 256 := by
    intro b hb
    exact Sum256_lt _ b (List.mem_of_mem_drop (List.mem_of_mem_take hb))
  have h8 : (((sha256.Sum256 (goBytes original)).drop (attempt % (32 - 8 + 1))).take 8).length
      = 8 := by
    simp [hlen]
    omega
  have := beValue_lt _ hb
  rw [h8] at this
  simpa [bigEndianUint64] using this

theorem pow62_eq (length : Nat) (h : length ≤ 9) : pow62 length = 62 ^ length := by
  unfold pow62
  apply Nat.mod_eq_of_lt
  calc 62 ^ length ≤ 62 ^ 9 := Nat.pow_le_pow_right (by norm_num) h
    _ < 2 ^ 64 := by norm_num

theorem selectedValue_small (original : String) (length attempt : Nat) (h : length ≤ 9) :
    selectedValue original length attempt = digestWindow original attempt % 62 ^ length := by
  have hl : ¬ length ≥ 10 := by omega
  simp only [selectedValue, hl, if_false]
  rw [pow62_eq length h, digestWindow_eq]

theorem selectedValue_large (original : String) (length attempt : Nat) (h : 10 ≤ length) :
    selectedValue original length attempt = digestWindow original attempt := by
  have hl : length ≥ 10 := h
  simp only [selectedValue, hl, if_true]
  rw [digestWindow_eq]

/-! ### Reading a code as a numeral -/

theorem indexOf_base62Char : ∀ d, d < 62 → base62Chars.data.indexOf (base62Char d) = d := by
  decide

theorem valueFold_digits (l : List Nat) (hl : ∀ d ∈ l, d < 62) :
    valueFold 0 (l.reverse.map base62Char) = Nat.ofDigits 62 l := by
  induction l with
  | nil => simp [valueFold]
  | cons d l ih =>
    have hd : d < 62 := hl d (List.mem_cons_self _ _)
    have ih2 := ih (fun x hx => hl x (List.mem_cons_of_mem _ hx))
    simp only [valueFold] at ih2 ⊢
    simp only [List.reverse_cons, List.map_append, List.map_cons, List.map_nil,
      List.foldl_append, List.foldl_cons, List.foldl_nil, ih2, indexOf_base62Char d hd,
      Nat.ofDigits_cons]
    ring

theorem base62Value_encode (num : Nat) : base62Value (base62Encode num) = num := by
  by_cases h : num = 0
  · subst h
    rw [base62Encode_zero]
    decide
  · have := valueFold_digits (Nat.digits 62 num)
      (fun d hd => Nat.digits_lt_base (by norm_num) hd)
    rw [Nat.ofDigits_digits] at this
    simpa [base62Value, valueFold, base62Encode_data num h] using this

theorem valueFold_zeros (k : Nat) (cs : List Char) :
    valueFold 0 (List.replicate k '0' ++ cs) = valueFold 0 cs := by
  induction k with
  | zero => simp
  | succ k ih =>
    have h0 : base62Chars.data.indexOf '0' = 0 := by decide
    simp only [valueFold] at ih ⊢
    simp only [List.replicate_succ, List.cons_append, List.foldl_cons, h0]
    exact ih

/-! ## Shape and value of generated codes -/

/-- Shape of a generated code, for every length: exactly `length` characters, all of
them in `base62Chars`. -/
theorem deterministicShortCode_shape (original : String) (length attempt : Nat) :
    (DeterministicShortCode original length attempt).length = length ∧
    ∀ c ∈ (DeterministicShortCode original length attempt).data, c ∈ base62Chars.data := by
  have halpha := base62Encode_alphabet (selectedValue original length attempt)
  unfold DeterministicShortCode
  simp only []
  split_ifs with h1 h2
  · constructor
    · simp only [String.length] at h1 ⊢
      rw [List.length_take]
      omega
    · intro c hc
      exact halpha c (List.mem_of_mem_take hc)
  · constructor
    · rw [String.length_append]
      have hr : (String.mk (List.replicate
          (length - (base62Encode (selectedValue original length attempt)).length) '0')).length
          = length - (base62Encode (selectedValue original length attempt)).length :=
        List.length_replicate _ _
      omega
    · intro c hc
      simp only [String.data_append, List.mem_append] at hc
      rcases hc with hc | hc
      · rw [List.eq_of_mem_replicate hc]
        exact zero_mem_alphabet
      · exact halpha c hc
  · constructor
    · omega
    · exact halpha

/-- C9 as stated fails: for `https://example.com/a`, length 10, attempt 0 the encoding
`3VOIPhmXSNu` has 11 characters, and the code returned is `3VOIPhmXSN`, which is not the
last 10 characters `VOIPhmXSNu`. -/
theorem deterministicShortCode_keeps_last_counterexample :
    base62Encode (selectedValue "https://example.com/a" 10 0) = "3VOIPhmXSNu" ∧
    (base62Encode (selectedValue "https://example.com/a" 10 0)).length > 10 ∧
    DeterministicShortCode "https://example.com/a" 10 0 = "3VOIPhmXSN" ∧
    DeterministicShortCode "https://example.com/a" 10 0 ≠
      String.mk ((base62Encode (selectedValue "https://example.com/a" 10 0)).data.drop
        ((base62Encode (selectedValue "https://example.com/a" 10 0)).length - 10)) := by
  set_option maxRecDepth 100000 in decide

/-- C9 (amended): when the encoding of the selected value is longer than `length`, the
returned code is the first `length` characters of the encoding, i.e. its most significant
base-62 digits; this happens only for `length = 10`, the encoding then has 11 digits and
the code reads as the selected value divided by 62. -/
theorem deterministicShortCode_keeps_first (original : String) (length attempt : Nat)
    (hlen : 1 ≤ length)
    (hlong : (base62Encode (selectedValue original length attempt)).length > length) :
    DeterministicShortCode original length attempt =
      String.mk ((base62Encode (selectedValue original length attempt)).data.take length) ∧
    length = 10 ∧
    base62Value (DeterministicShortCode original length attempt) =
      selectedValue original length attempt / 62 := by
  have hcode : DeterministicShortCode original length attempt =
      String.mk ((base62Encode (selectedValue original length attempt)).data.take length) := by
    simp only [DeterministicShortCode, hlong, if_true]
  have hw := digestWindow_lt original attempt
  have h10 : length = 10 := by
    by_contra hne
    rcases Nat.lt_or_ge length 10 with hlt | hge
    · have h9 : length ≤ 9 := by omega
      have hsel := selectedValue_small original length attempt h9
      have hlt2 : selectedValue original length attempt < 62 ^ length := by
        rw [hsel]
        exact Nat.mod_lt _ (Nat.pow_pos (by norm_num))
      have := base62Encode_length_le _ length hlen hlt2
      omega
    · have hsel := selectedValue_large original length attempt hge
      have hlt2 : selectedValue original length attempt < 62 ^ 11 := by
        rw [hsel]
        calc digestWindow original attempt < 2 ^ 64 := hw
          _ < 62 ^ 11 := by norm_num
      have := base62Encode_length_le _ 11 (by norm_num) hlt2
      omega
  refine ⟨hcode, h10, ?_⟩
  subst h10
  have hsel := selectedValue_large original 10 attempt (le_refl _)
  have hlt2 : selectedValue original 10 attempt < 62 ^ 11 := by
    rw [hsel]
    calc digestWindow original attempt < 2 ^ 64 := hw
      _ < 62 ^ 11 := by norm_num
  have hle := base62Encode_length_le _ 11 (by norm_num) hlt2
  have hne : selectedValue original 10 attempt ≠ 0 := by
    intro h0
    rw [h0, base62Encode_zero] at hlong
    revert hlong
    decide
  have hlen11 : (Nat.digits 62 (selectedValue original 10 attempt)).length = 11 := by
    rw [← base62Encode_length _ hne]
    omega
  rw [hcode]
  simp only [base62Value, base62Encode_data _ hne]
  rw [← List.map_take, List.take_reverse, hlen11]
  rw [valueFold_digits _ (fun d hd => Nat.digits_lt_base (by norm_num) (List.mem_of_mem_drop hd))]
  have hdiv := Nat.self_div_pow_eq_ofDigits_drop 1 (selectedValue original 10 attempt)
    (show 2 ≤ 62 by norm_num)
  rw [pow_one] at hdiv
  rw [hdiv]

/-- C9 (amended) at `https://example.com/a`, length 10, attempt 0. -/
theorem deterministicShortCode_keeps_first_witness :
    (base62Encode (selectedValue "https://example.com/a" 10 0)).length > 10 ∧
    DeterministicShortCode "https://example.com/a" 10 0 =
      String.mk ((base62Encode (selectedValue "https://example.com/a" 10 0)).data.take 10) ∧
    (10 : Nat) = 10 ∧
    base62Value (DeterministicShortCode "https://example.com/a" 10 0) =
      selectedValue "https://example.com/a" 10 0 / 62 :=
  ⟨by set_option maxRecDepth 100000 in decide,
   deterministicShortCode_keeps_first "https://example.com/a" 10 0 (by decide)
     (by set_option maxRecDepth 100000 in decide)⟩

/-- C10: for lengths 1 to 9 the code, read as a base-62 numeral (most significant digit
first, leading `0` as padding), has the value of the 64-bit big-endian digest window at
offset `attempt mod 25` reduced modulo `62 ^ length`, and the encoding is never longer
than `length`, so nothing is truncated. -/
theorem deterministicShortCode_value (original : String) (length attempt : Nat)
    (h1 : 1 ≤ length) (h9 : length ≤ 9) :
    base62Value (DeterministicShortCode original length attempt) =
      digestWindow original attempt % 62 ^ length ∧
    (base62Encode (selectedValue original length attempt)).length ≤ length := by
  have hsel := selectedValue_small original length attempt h9
  have hlt : selectedValue original length attempt < 62 ^ length := by
    rw [hsel]
    exact Nat.mod_lt _ (Nat.pow_pos (by norm_num))
  have hle := base62Encode_length_le _ length h1 hlt
  refine ⟨?_, hle⟩
  have hv := base62Value_encode (selectedValue original length attempt)
  rw [← hsel]
  unfold DeterministicShortCode
  simp only []
  split_ifs with ha hb
  · omega
  · simp only [base62Value, String.data_append, valueFold_zeros] at hv ⊢
    exact hv
  · exact hv

/-- C10 at `https://example.com/a`, length 8, attempt 0. -/
theorem deterministicShortCode_value_witness :
    base62Value (DeterministicShortCode "https://example.com/a" 8 0) =
      digestWindow "https://example.com/a" 0 % 62 ^ 8 ∧
    (base62Encode (selectedValue "https://example.com/a" 8 0)).length ≤ 8 :=
  deterministicShortCode_value "https://example.com/a" 8 0 (by decide) (by decide)

/-! ## Facts about the store and the cache -/

theorem short_ne_clicks (a b : String) : "short:" ++ a ≠ "clicks:" ++ b := by
  intro h
  have hd := congrArg String.data h
  simp [String.data_append] at hd

theorem GetByOriginalURL_ok (r : Repo) (u : String) (m : URLMapping)
    (h : r.GetByOriginalURL u = .ok m) : m ∈ r.rows ∧ m.OriginalURL = u := by
  unfold Repo.GetByOriginalURL at h
  split_ifs at h
  split at h
  · rename_i m2 hf
    cases h
    exact ⟨List.mem_of_find?_eq_some hf, by simpa using List.find?_some hf⟩
  · cases h

theorem GetByShortCode_ok (r : Repo) (c : String) (m : URLMapping)
    (h : r.GetByShortCode c = .ok m) : m ∈ r.rows ∧ m.ShortCode = c := by
  unfold Repo.GetByShortCode at h
  split_ifs at h
  split at h
  · rename_i m2 hf
    cases h
    exact ⟨List.mem_of_find?_eq_some hf, by simpa using List.find?_some hf⟩
  · cases h

theorem Create_ok (r r2 : Repo) (c u : String) (m : URLMapping)
    (h : r.Create c u = .ok (m, r2)) :
    r2.rows = r.rows ++ [m] ∧ m.ShortCode = c ∧ m.OriginalURL = u ∧ r2.online = r.online ∧
    r.online = true ∧ ∀ x ∈ r.rows, x.ShortCode ≠ c ∧ x.OriginalURL ≠ u := by
  unfold Repo.Create at h
  split_ifs at h with h1 h2
  simp only [Except.ok.injEq, Prod.mk.injEq] at h
  obtain ⟨rfl, rfl⟩ := h
  refine ⟨rfl, rfl, rfl, rfl, by simpa using h1, ?_⟩
  intro x hx
  simp only [List.any_eq_true, not_exists, not_and] at h2
  have := h2 x hx
  simpa [not_or] using this

/-- Two rows of a table with unique codes that share a code are the same row. -/
theorem UniqueRows.eq_of_code {rows : List URLMapping} (h : UniqueRows rows)
    {a b : URLMapping} (ha : a ∈ rows) (hb : b ∈ rows) (hc : a.ShortCode = b.ShortCode) :
    a = b := by
  by_contra hne
  have hsymm : Symmetric (fun a b : URLMapping =>
      a.ShortCode ≠ b.ShortCode ∧ a.OriginalURL ≠ b.OriginalURL) := by
    intro x y hxy
    exact ⟨fun e => hxy.1 e.symm, fun e => hxy.2 e.symm⟩
  exact (List.Pairwise.forall hsymm h ha hb hne).1 hc

/-- Two rows of a table with unique originals that share an original are the same row. -/
theorem UniqueRows.eq_of_original {rows : List URLMapping} (h : UniqueRows rows)
    {a b : URLMapping} (ha : a ∈ rows) (hb : b ∈ rows) (hc : a.OriginalURL = b.OriginalURL) :
    a = b := by
  by_contra hne
  have hsymm : Symmetric (fun a b : URLMapping =>
      a.ShortCode ≠ b.ShortCode ∧ a.OriginalURL ≠ b.OriginalURL) := by
    intro x y hxy
    exact ⟨fun e => hxy.1 e.symm, fun e => hxy.2 e.symm⟩
  exact (List.Pairwise.forall hsymm h ha hb hne).2 hc

theorem UniqueRows.append_new {rows : List URLMapping} (h : UniqueRows rows) (m : URLMapping)
    (hm : ∀ x ∈ rows, x.ShortCode ≠ m.ShortCode ∧ x.OriginalURL ≠ m.OriginalURL) :
    UniqueRows (rows ++ [m]) := by
  unfold UniqueRows at h ⊢
  rw [List.pairwise_append]
  refine ⟨h, List.pairwise_singleton _ _, ?_⟩
  intro a ha b hb
  rw [List.mem_singleton] at hb
  subst hb
  exact hm a ha

theorem UniqueRows.map_same {rows : List URLMapping} (h : UniqueRows rows)
    (f : URLMapping → URLMapping)
    (hf : ∀ m, (f m).ShortCode = m.ShortCode ∧ (f m).OriginalURL = m.OriginalURL) :
    UniqueRows (rows.map f) := by
  unfold UniqueRows at h ⊢
  rw [List.pairwise_map]
  refine h.imp ?_
  intro a b hab
  rw [(hf a).1, (hf a).2, (hf b).1, (hf b).2]
  exact hab

theorem GetByOriginalURL_of_mem (r : Repo) (m : URLMapping) (hon : r.online = true)
    (hu : UniqueRows r.rows) (hm : m ∈ r.rows) :
    r.GetByOriginalURL m.OriginalURL = .ok m := by
  unfold Repo.GetByOriginalURL
  simp only [hon, Bool.true_eq_false, if_false]
  cases hf : r.rows.find? (fun x => x.OriginalURL = m.OriginalURL) with
  | none =>
    rw [List.find?_eq_none] at hf
    have := hf m hm
    simp at this
  | some x =>
    have hx : x ∈ r.rows := List.mem_of_find?_eq_some hf
    have hx2 : x.OriginalURL = m.OriginalURL := by simpa using List.find?_some hf
    rw [hu.eq_of_original hx hm hx2]

theorem GetByShortCode_of_mem (r : Repo) (m : URLMapping) (hon : r.online = true)
    (hu : UniqueRows r.rows) (hm : m ∈ r.rows) :
    r.GetByShortCode m.ShortCode = .ok m := by
  unfold Repo.GetByShortCode
  simp only [hon, Bool.true_eq_false, if_false]
  cases hf : r.rows.find? (fun x => x.ShortCode = m.ShortCode) with
  | none =>
    rw [List.find?_eq_none] at hf
    have := hf m hm
    simp at this
  | some x =>
    have hx : x ∈ r.rows := List.mem_of_find?_eq_some hf
    have hx2 : x.ShortCode = m.ShortCode := by simpa using List.find?_some hf
    rw [hu.eq_of_code hx hm hx2]

theorem IncrementClickBy_online (r : Repo) (c : String) (d : Int) :
    (r.IncrementClickBy c d).2.online = r.online := by
  unfold Repo.IncrementClickBy
  split_ifs <;> rfl

theorem IncrementClickBy_rows (r : Repo) (c : String) (d : Int) :
    ∃ f : URLMapping → URLMapping,
      (∀ m, (f m).ShortCode = m.ShortCode ∧ (f m).OriginalURL = m.OriginalURL) ∧
      (r.IncrementClickBy c d).2.rows = r.rows.map f := by
  unfold Repo.IncrementClickBy
  split_ifs
  · exact ⟨id, fun m => ⟨rfl, rfl⟩, by simp⟩
  · exact ⟨id, fun m => ⟨rfl, rfl⟩, by simp⟩
  · refine ⟨_, ?_, rfl⟩
    intro m
    split_ifs <;> exact ⟨rfl, rfl⟩

theorem Set_short (rc : Redis) (c v : String) (ex : Int) (code : String) (e : RedisEntry)
    (h : (rc.Set ("short:" ++ c) v ex).2.kv ("short:" ++ code) = some e) :
    rc.kv ("short:" ++ code) = some e ∨ (code = c ∧ e.value = .str v) := by
  unfold Redis.Set at h
  split_ifs at h with h1
  · exact Or.inl h
  · simp only at h
    split_ifs at h with h2
    · right
      have hd := congrArg String.data h2
      simp only [String.data_append, List.append_cancel_left_eq] at hd
      have hc : code = c := String.ext hd
      cases h
      exact ⟨hc, rfl⟩
    · exact Or.inl h

theorem Incr_short (rc : Redis) (c code : String) :
    (rc.Incr ("clicks:" ++ c)).2.kv ("short:" ++ code) = rc.kv ("short:" ++ code) := by
  unfold Redis.Incr
  split_ifs with h1
  · rfl
  · split
    · rfl
    · split_ifs
      · rfl
      · simp [short_ne_clicks]

theorem Del_short (rc : Redis) (c code : String) :
    (rc.Del ("clicks:" ++ c)).2.kv ("short:" ++ code) = rc.kv ("short:" ++ code) := by
  unfold Redis.Del
  split_ifs with h1
  · rfl
  · simp [short_ne_clicks]

/-! ## The operations keep the invariant -/

theorem RowsKept.refl (rows : List URLMapping) : RowsKept rows rows :=
  fun m hm => ⟨m, hm, rfl, rfl⟩

theorem RowsKept.append (rows l : List URLMapping) : RowsKept rows (rows ++ l) :=
  fun m hm => ⟨m, List.mem_append_left _ hm, rfl, rfl⟩

theorem RowsKept.map (rows : List URLMapping) (f : URLMapping → URLMapping)
    (hf : ∀ m, (f m).ShortCode = m.ShortCode ∧ (f m).OriginalURL = m.OriginalURL) :
    RowsKept rows (rows.map f) :=
  fun m hm => ⟨f m, List.mem_map_of_mem f hm, (hf m).1, (hf m).2⟩

theorem CacheConsistent.of_kept {s t : Service} (h : CacheConsistent s)
    (hr : RowsKept s.Repo.rows t.Repo.rows)
    (hc : ∀ rc2, t.Redis = some rc2 → ∀ code e, rc2.kv ("short:" ++ code) = some e →
      (∃ rc, s.Redis = some rc ∧ rc.kv ("short:" ++ code) = some e) ∨
      (∃ m ∈ t.Repo.rows, m.ShortCode = code ∧ e.value = .str m.OriginalURL)) :
    CacheConsistent t := by
  intro rc2 hrc2 code e he
  rcases hc rc2 hrc2 code e he with ⟨rc, hrc, hk⟩ | hnew
  · obtain ⟨m, hm, hcode, hval⟩ := h rc hrc code e hk
    obtain ⟨m2, hm2, hc2, ho2⟩ := hr m hm
    exact ⟨m2, hm2, by rw [hc2, hcode], by rw [ho2, hval]⟩
  · exact hnew

theorem createLoop_ok (u : String) : ∀ (n a : Nat) (s : Service) (m : URLMapping),
    (Service.createLoop u n a s).1 = .ok m →
    m ∈ (Service.createLoop u n a s).2.Repo.rows ∧ m.OriginalURL = u := by
  intro n
  induction n with
  | zero =>
    intro a s m h
    simp [Service.createLoop] at h
  | succ n ih =>
    intro a s m h
    simp only [Service.createLoop] at h ⊢
    cases hg : s.Repo.GetByShortCode (DeterministicShortCode u s.ShortLen a) with
    | ok x =>
      rw [hg] at h
      simp only at h ⊢
      by_cases hx : x.OriginalURL = u
      · simp only [hx, if_true] at h ⊢
        cases h
        exact ⟨(GetByShortCode_ok _ _ _ hg).1, hx⟩
      · simp only [hx, if_false] at h ⊢
        exact ih (a + 1) s m h
    | error e =>
      rw [hg] at h
      simp only at h ⊢
      cases hc : s.Repo.Create (DeterministicShortCode u s.ShortLen a) u with
      | error e2 =>
        rw [hc] at h
        simp only at h ⊢
        exact ih (a + 1) s m h
      | ok p =>
        obtain ⟨created, repo⟩ := p
        rw [hc] at h
        obtain ⟨hrows, -, horig, -⟩ := Create_ok _ _ _ _ _ hc
        cases hr : s.Redis with
        | none =>
          rw [hr] at h
          simp only at h ⊢
          cases h
          exact ⟨by rw [hrows]; simp, horig⟩
        | some rc =>
          rw [hr] at h
          simp only at h ⊢
          cases h
          exact ⟨by rw [hrows]; simp, horig⟩

theorem createLoop_rows (u : String) : ∀ (n a : Nat) (s : Service),
    ∃ l, (Service.createLoop u n a s).2.Repo.rows = s.Repo.rows ++ l := by
  intro n
  induction n with
  | zero =>
    intro a s
    exact ⟨[], by simp [Service.createLoop]⟩
  | succ n ih =>
    intro a s
    simp only [Service.createLoop]
    cases hg : s.Repo.GetByShortCode (DeterministicShortCode u s.ShortLen a) with
    | ok x =>
      simp only
      by_cases hx : x.OriginalURL = u
      · simp only [hx, if_true]
        exact ⟨[], by simp⟩
      · simp only [hx, if_false]
        exact ih (a + 1) s
    | error e =>
      simp only
      cases hc : s.Repo.Create (DeterministicShortCode u s.ShortLen a) u with
      | error e2 =>
        simp only
        exact ih (a + 1) s
      | ok p =>
        obtain ⟨created, repo⟩ := p
        obtain ⟨hrows, -⟩ := Create_ok _ _ _ _ _ hc
        cases hr : s.Redis with
        | none => exact ⟨[created], hrows⟩
        | some rc => exact ⟨[created], hrows⟩

theorem createLoop_inv (u : String) : ∀ (n a : Nat) (s : Service), Inv s →
    Inv (Service.createLoop u n a s).2 := by
  intro n
  induction n with
  | zero =>
    intro a s h
    simpa [Service.createLoop] using h
  | succ n ih =>
    intro a s h
    simp only [Service.createLoop]
    cases hg : s.Repo.GetByShortCode (DeterministicShortCode u s.ShortLen a) with
    | ok x =>
      simp only
      by_cases hx : x.OriginalURL = u
      · simp only [hx, if_true]
        exact h
      · simp only [hx, if_false]
        exact ih (a + 1) s h
    | error e =>
      simp only
      cases hc : s.Repo.Create (DeterministicShortCode u s.ShortLen a) u with
      | error e2 =>
        simp only
        exact ih (a + 1) s h
      | ok p =>
        obtain ⟨created, repo⟩ := p
        obtain ⟨hrows, hcode, horig, hon, -, hnew⟩ := Create_ok _ _ _ _ _ hc
        have huniq : UniqueRows repo.rows := by
          rw [hrows]
          apply h.unique.append_new
          intro x hx
          rw [hcode, horig]
          exact hnew x hx
        have hkept : RowsKept s.Repo.rows repo.rows := by
          rw [hrows]
          exact RowsKept.append _ _
        have hmem : created ∈ repo.rows := by rw [hrows]; simp
        cases hr : s.Redis with
        | none =>
          refine ⟨by simpa [hon] using h.online, huniq, ?_⟩
          apply CacheConsistent.of_kept h.cache hkept
          intro rc2 hrc2
          simp [hr] at hrc2
        | some rc =>
          refine ⟨by simpa [hon] using h.online, huniq, ?_⟩
          apply CacheConsistent.of_kept h.cache hkept
          intro rc2 hrc2 code e he
          simp only [Option.some.injEq] at hrc2
          subst hrc2
          rcases Set_short _ _ _ _ _ _ he with hold | ⟨hc2, hv⟩
          · exact Or.inl ⟨rc, hr, hold⟩
          · right
            exact ⟨created, hmem, by rw [hcode, hc2], by rw [hv, horig]⟩

theorem CreateShort_ok (parse : String → Option URL) (s : Service) (u : String)
    (m : URLMapping) (h : (s.CreateShort parse u).1 = .ok m) :
    m ∈ (s.CreateShort parse u).2.Repo.rows ∧ m.OriginalURL = u := by
  unfold Service.CreateShort at h ⊢
  by_cases hv : ValidateURL parse u = false
  · simp [hv] at h
  · simp only [hv, if_false] at h ⊢
    cases hg : s.Repo.GetByOriginalURL u with
    | ok x =>
      rw [hg] at h
      simp only at h ⊢
      cases h
      exact GetByOriginalURL_ok _ _ _ hg
    | error e =>
      rw [hg] at h
      simp only at h ⊢
      exact createLoop_ok u 16 0 s m h

theorem CreateShort_rows (parse : String → Option URL) (s : Service) (u : String) :
    ∃ l, (s.CreateShort parse u).2.Repo.rows = s.Repo.rows ++ l := by
  unfold Service.CreateShort
  split_ifs with hv
  · exact ⟨[], by simp⟩
  · cases hg : s.Repo.GetByOriginalURL u with
    | ok x => exact ⟨[], by simp⟩
    | error e => exact createLoop_rows u 16 0 s

theorem CreateShort_inv (parse : String → Option URL) (s : Service) (u : String)
    (h : Inv s) : Inv (s.CreateShort parse u).2 := by
  unfold Service.CreateShort
  split_ifs with hv
  · exact h
  · cases hg : s.Repo.GetByOriginalURL u with
    | ok x => exact h
    | error e => exact createLoop_inv u 16 0 s h

theorem resolveFromStore_inv (s : Service) (code : String) (h : Inv s) :
    Inv (s.resolveFromStore code).2.1 := by
  unfold Service.resolveFromStore
  cases hg : s.Repo.GetByShortCode code with
  | error e => exact h
  | ok m =>
    obtain ⟨hm, hcode⟩ := GetByShortCode_ok _ _ _ hg
    cases hr : s.Redis with
    | none =>
      simp only
      exact h
    | some rc =>
      simp only
      refine ⟨h.online, h.unique, ?_⟩
      refine @CacheConsistent.of_kept s _ h.cache (RowsKept.refl _) ?_
      intro rc2 hrc2 c e he
      simp only [Option.some.injEq] at hrc2
      subst hrc2
      rw [Incr_short] at he
      rcases Set_short _ _ _ _ _ _ he with hold | ⟨hc2, hv⟩
      · exact Or.inl ⟨rc, hr, hold⟩
      · right
        exact ⟨m, hm, by rw [hcode, hc2], hv⟩

theorem Resolve_inv (s : Service) (code : String) (h : Inv s) : Inv (s.Resolve code).2.1 := by
  unfold Service.Resolve
  cases hr : s.Redis with
  | none =>
    simp only
    exact resolveFromStore_inv s code h
  | some rc =>
    simp only
    cases hg : rc.Get ("short:" ++ code) with
    | error e =>
      simp only
      exact resolveFromStore_inv s code h
    | ok v =>
      simp only
      refine ⟨h.online, h.unique, ?_⟩
      refine @CacheConsistent.of_kept s _ h.cache (RowsKept.refl _) ?_
      intro rc2 hrc2 c e he
      simp only [Option.some.injEq] at hrc2
      subst hrc2
      rw [Incr_short] at he
      exact Or.inl ⟨rc, hr, he⟩

theorem fallback_inv (s : Service) (code : String) (d : Int) (h : Inv s) :
    Inv { s with Repo := (s.Repo.IncrementClickBy code d).2 } := by
  obtain ⟨f, hf, hrows⟩ := IncrementClickBy_rows s.Repo code d
  refine ⟨by simpa [IncrementClickBy_online] using h.online, ?_, ?_⟩
  · simp only [hrows]
    exact h.unique.map_same f hf
  · apply CacheConsistent.of_kept h.cache
    · simp only [hrows]
      exact RowsKept.map _ f hf
    · intro rc2 hrc2 c e he
      exact Or.inl ⟨rc2, hrc2, he⟩

theorem persistClick_inv (s : Service) (code : String) (h : Inv s) :
    Inv (s.persistClick code) := by
  unfold Service.persistClick
  simp only
  cases hr : s.Redis with
  | none =>
    simp only
    have := fallback_inv s code 1 h
    simpa [hr] using this
  | some rc =>
    simp only
    cases hg : rc.GetInt64 ("clicks:" ++ code) with
    | error e =>
      simp only
      have := fallback_inv s code 1 h
      simpa [hr] using this
    | ok cnt =>
      simp only
      split_ifs with hpos
      · obtain ⟨f, hf, hrows⟩ := IncrementClickBy_rows s.Repo code cnt
        refine ⟨by simpa [IncrementClickBy_online] using h.online, ?_, ?_⟩
        · simp only [hrows]
          exact h.unique.map_same f hf
        · apply CacheConsistent.of_kept h.cache
          · simp only [hrows]
            exact RowsKept.map _ f hf
          · intro rc2 hrc2 c e he
            simp only [Option.some.injEq] at hrc2
            subst hrc2
            rw [Del_short] at he
            exact Or.inl ⟨rc, hr, he⟩
      · have := fallback_inv s code 1 h
        simpa [hr] using this

theorem Step.keeps_inv {parse : String → Option URL} {s t : Service} (hst : Step parse s t)
    (h : Inv s) : Inv t := by
  cases hst with
  | createShort original => exact CreateShort_inv parse s original h
  | resolve code => exact Resolve_inv s code h
  | persistClick code => exact persistClick_inv s code h
  | expire rc key hrc =>
    refine ⟨h.online, h.unique, ?_⟩
    refine @CacheConsistent.of_kept s _ h.cache (RowsKept.refl _) ?_
    intro rc2 hrc2 c e he
    simp only [Option.some.injEq] at hrc2
    subst hrc2
    simp only at he
    split_ifs at he
    exact Or.inl ⟨rc, hrc, he⟩
  | cacheOnline rc b hrc =>
    refine ⟨h.online, h.unique, ?_⟩
    refine @CacheConsistent.of_kept s _ h.cache (RowsKept.refl _) ?_
    intro rc2 hrc2 c e he
    simp only [Option.some.injEq] at hrc2
    subst hrc2
    exact Or.inl ⟨rc, hrc, he⟩
  | tick t =>
    refine ⟨h.online, h.unique, ?_⟩
    refine @CacheConsistent.of_kept s _ h.cache (RowsKept.refl _) ?_
    intro rc2 hrc2 c e he
    exact Or.inl ⟨rc2, hrc2, he⟩

theorem Reachable.inv {parse : String → Option URL} {s : Service} (h : Reachable parse s) :
    Inv s := by
  induction h with
  | init cache =>
    refine ⟨rfl, List.Pairwise.nil, ?_⟩
    intro rc hrc code e he
    cases cache with
    | none => simp [NewService] at hrc
    | some b =>
      simp only [NewService, Option.map_some', Option.some.injEq] at hrc
      subst hrc
      simp [Redis.empty] at he
  | step s t _ hst ih => exact hst.keeps_inv ih

/-! ## The codes held by the store -/

theorem createLoop_codes (u : String) : ∀ (n a : Nat) (s : Service), CodesWellFormed s →
    CodesWellFormed (Service.createLoop u n a s).2 := by
  intro n
  induction n with
  | zero =>
    intro a s h
    simpa [Service.createLoop] using h
  | succ n ih =>
    intro a s h
    simp only [Service.createLoop]
    cases hg : s.Repo.GetByShortCode (DeterministicShortCode u s.ShortLen a) with
    | ok x =>
      simp only
      by_cases hx : x.OriginalURL = u
      · simp only [hx, if_true]
        exact h
      · simp only [hx, if_false]
        exact ih (a + 1) s h
    | error e =>
      simp only
      cases hc : s.Repo.Create (DeterministicShortCode u s.ShortLen a) u with
      | error e2 =>
        simp only
        exact ih (a + 1) s h
      | ok p =>
        obtain ⟨created, repo⟩ := p
        obtain ⟨hrows, hcode, -⟩ := Create_ok _ _ _ _ _ hc
        have hall : ∀ m ∈ repo.rows,
            m.ShortCode.length = 8 ∧ ∀ c ∈ m.ShortCode.data, c ∈ base62Chars.data := by
          intro m hm
          rw [hrows, List.mem_append, List.mem_singleton] at hm
          rcases hm with hm | rfl
          · exact h.2 m hm
          · rw [hcode, h.1]
            exact deterministicShortCode_shape u 8 a
        cases hr : s.Redis with
        | none => exact ⟨h.1, hall⟩
        | some rc => exact ⟨h.1, hall⟩

theorem CreateShort_codes (parse : String → Option URL) (s : Service) (u : String)
    (h : CodesWellFormed s) : CodesWellFormed (s.CreateShort parse u).2 := by
  unfold Service.CreateShort
  split_ifs with hv
  · exact h
  · cases hg : s.Repo.GetByOriginalURL u with
    | ok x => exact h
    | error e => exact createLoop_codes u 16 0 s h

theorem resolveFromStore_repo (s : Service) (code : String) :
    (s.resolveFromStore code).2.1.Repo = s.Repo ∧
    (s.resolveFromStore code).2.1.ShortLen = s.ShortLen := by
  unfold Service.resolveFromStore
  cases s.Repo.GetByShortCode code with
  | error e => exact ⟨rfl, rfl⟩
  | ok m => cases s.Redis <;> exact ⟨rfl, rfl⟩

theorem Resolve_repo (s : Service) (code : String) :
    (s.Resolve code).2.1.Repo = s.Repo ∧ (s.Resolve code).2.1.ShortLen = s.ShortLen := by
  unfold Service.Resolve
  cases s.Redis with
  | none => exact resolveFromStore_repo s code
  | some rc =>
    simp only
    cases rc.Get ("short:" ++ code) with
    | error e => exact resolveFromStore_repo s code
    | ok v => exact ⟨rfl, rfl⟩

theorem CodesWellFormed.of_map {s : Service} (h : CodesWellFormed s) (t : Service)
    (f : URLMapping → URLMapping) (hf : ∀ m, (f m).ShortCode = m.ShortCode)
    (hrows : t.Repo.rows = s.Repo.rows.map f) (hlen : t.ShortLen = s.ShortLen) :
    CodesWellFormed t := by
  refine ⟨by rw [hlen, h.1], ?_⟩
  intro m hm
  rw [hrows, List.mem_map] at hm
  obtain ⟨m0, hm0, rfl⟩ := hm
  rw [hf m0]
  exact h.2 m0 hm0

theorem persistClick_codes (s : Service) (code : String) (h : CodesWellFormed s) :
    CodesWellFormed (s.persistClick code) := by
  obtain ⟨f1, hf1, hrows1⟩ := IncrementClickBy_rows s.Repo code 1
  unfold Service.persistClick
  simp only
  cases hr : s.Redis with
  | none => exact h.of_map _ f1 (fun m => (hf1 m).1) hrows1 rfl
  | some rc =>
    simp only
    cases hg : rc.GetInt64 ("clicks:" ++ code) with
    | error e => exact h.of_map _ f1 (fun m => (hf1 m).1) hrows1 rfl
    | ok cnt =>
      simp only
      split_ifs with hpos
      · obtain ⟨f, hf, hrows⟩ := IncrementClickBy_rows s.Repo code cnt
        exact h.of_map _ f (fun m => (hf m).1) hrows rfl
      · exact h.of_map _ f1 (fun m => (hf1 m).1) hrows1 rfl

theorem Reachable.codes {parse : String → Option URL} {s : Service} (h : Reachable parse s) :
    CodesWellFormed s := by
  induction h with
  | init cache => exact ⟨rfl, by simp [NewService, NewRepo]⟩
  | step s t _ hst ih =>
    cases hst with
    | createShort original => exact CreateShort_codes parse s original ih
    | resolve code =>
      obtain ⟨h1, h2⟩ := Resolve_repo s code
      exact ⟨by rw [h2, ih.1], by rw [h1]; exact ih.2⟩
    | persistClick code => exact persistClick_codes s code ih
    | expire rc key hrc => exact ih
    | cacheOnline rc b hrc => exact ih
    | tick t => exact ih

/-- C3: for every original, every length of at least 1 and every attempt,
`DeterministicShortCode` returns exactly `length` characters, each of them one of the 62
characters of `base62Chars`; and the service, which generates at length 8, only issues
such codes of 8 characters: in every reachable state a mapping returned by `CreateShort`
has one. -/
theorem deterministicShortCode_length_alphabet :
    (∀ (original : String) (length attempt : Nat), 1 ≤ length →
      (DeterministicShortCode original length attempt).length = length ∧
      ∀ c ∈ (DeterministicShortCode original length attempt).data, c ∈ base62Chars.data) ∧
    (∀ (parse : String → Option URL) (s : Service) (u : String) (m : URLMapping),
      Reachable parse s → (s.CreateShort parse u).1 = .ok m →
      m.ShortCode.length = 8 ∧ ∀ c ∈ m.ShortCode.data, c ∈ base62Chars.data) := by
  constructor
  · intro original length attempt _
    exact deterministicShortCode_shape original length attempt
  · intro parse s u m hs h
    have hcodes : CodesWellFormed (s.CreateShort parse u).2 :=
      CreateShort_codes parse s u hs.codes
    exact hcodes.2 m (CreateShort_ok parse s u m h).1

/-- C3 at `https://example.com/a`: the attempt-0 candidate of length 8, and the mapping the
service issues for it on a new store. -/
theorem deterministicShortCode_length_alphabet_witness :
    (1 ≤ 8 ∧
      (DeterministicShortCode "https://example.com/a" 8 0).length = 8 ∧
      ∀ c ∈ (DeterministicShortCode "https://example.com/a" 8 0).data,
        c ∈ base62Chars.data) ∧
    (Reachable schemeOf freshService ∧
      (freshService.CreateShort schemeOf "https://example.com/a").1 =
        .ok ⟨1, "IPhmXSNu", "https://example.com/a", 0, 0, none⟩ ∧
      ("IPhmXSNu" : String).length = 8 ∧
      ∀ c ∈ ("IPhmXSNu" : String).data, c ∈ base62Chars.data) :=
  ⟨⟨by decide,
    deterministicShortCode_length_alphabet.1 "https://example.com/a" 8 0 (by decide)⟩,
   ⟨Reachable.init (some true), by set_option maxRecDepth 100000 in decide,
    deterministicShortCode_length_alphabet.2 schemeOf freshService "https://example.com/a"
      ⟨1, "IPhmXSNu", "https://example.com/a", 0, 0, none⟩ (Reachable.init (some true))
      (by set_option maxRecDepth 100000 in decide)⟩⟩

/-! ## Claims about the service -/

theorem Get_ok (rc : Redis) (key v : String) (h : rc.Get key = .ok v) :
    ∃ e, rc.kv key = some e ∧ (e.value = .str v ∨ ∃ n, e.value = .int n) := by
  unfold Redis.Get at h
  split_ifs at h
  cases hk : rc.kv key with
  | none => simp [hk] at h
  | some e =>
    rw [hk] at h
    simp only at h
    cases hv : e.value with
    | str s =>
      rw [hv] at h
      simp only [Except.ok.injEq] at h
      exact ⟨e, rfl, Or.inl (by rw [← h, hv])⟩
    | int n => exact ⟨e, rfl, Or.inr ⟨n, hv⟩⟩

/-- In a state satisfying the invariant, resolving the code of a stored row returns that
row's original URL, through the cache or through the store. -/
theorem Resolve_of_mem (s : Service) (m : URLMapping) (h : Inv s) (hm : m ∈ s.Repo.rows) :
    (s.Resolve m.ShortCode).1 = .ok m.OriginalURL := by
  have hstore : (s.resolveFromStore m.ShortCode).1 = .ok m.OriginalURL := by
    unfold Service.resolveFromStore
    rw [GetByShortCode_of_mem s.Repo m h.online h.unique hm]
    cases s.Redis <;> rfl
  unfold Service.Resolve
  cases hr : s.Redis with
  | none => exact hstore
  | some rc =>
    simp only
    cases hg : rc.Get ("short:" ++ m.ShortCode) with
    | error e => exact hstore
    | ok v =>
      simp only
      obtain ⟨e, hk, hval⟩ := Get_ok _ _ _ hg
      obtain ⟨m2, hm2, hc2, hv2⟩ := h.cache rc hr m.ShortCode e hk
      have heq : m2 = m := h.unique.eq_of_code hm2 hm hc2
      subst heq
      rcases hval with hs | ⟨n, hn⟩
      · rw [hv2] at hs
        cases hs
        rfl
      · rw [hv2] at hn
        cases hn

/-- In a state satisfying the invariant, `CreateShort` of the original of a stored row
returns that row and changes nothing. -/
theorem CreateShort_of_mem (parse : String → Option URL) (s : Service) (m : URLMapping)
    (h : Inv s) (hm : m ∈ s.Repo.rows) (hv : ValidateURL parse m.OriginalURL = true) :
    s.CreateShort parse m.OriginalURL = (.ok m, s) := by
  unfold Service.CreateShort
  simp only [hv, Bool.true_eq_false, if_false,
    GetByOriginalURL_of_mem s.Repo m h.online h.unique hm]

/-- C1: in every state reachable through the service's operations, if `CreateShort(u)`
succeeds with mapping `m` for a valid `u`, the `CreateShort(u)` that follows succeeds too,
returns a mapping with the short code of `m`, and leaves the rows of the store as they
were. -/
theorem createShort_idempotent (parse : String → Option URL) (s : Service) (u : String)
    (m : URLMapping) (hs : Reachable parse s) (hv : ValidateURL parse u = true)
    (h : (s.CreateShort parse u).1 = .ok m) :
    ∃ m2, ((s.CreateShort parse u).2.CreateShort parse u).1 = .ok m2 ∧
      m2.ShortCode = m.ShortCode ∧
      ((s.CreateShort parse u).2.CreateShort parse u).2.Repo.rows =
        (s.CreateShort parse u).2.Repo.rows := by
  have hinv : Inv (s.CreateShort parse u).2 := CreateShort_inv parse s u hs.inv
  obtain ⟨hm, ho⟩ := CreateShort_ok parse s u m h
  subst ho
  have hagain := CreateShort_of_mem parse _ m hinv hm hv
  exact ⟨m, by rw [hagain], rfl, by rw [hagain]⟩

/-- C1 on a new service with an empty cache and `https://example.com/a`. -/
theorem createShort_idempotent_witness :
    Reachable schemeOf freshService ∧
    ValidateURL schemeOf "https://example.com/a" = true ∧
    (freshService.CreateShort schemeOf "https://example.com/a").1 =
      .ok ⟨1, "IPhmXSNu", "https://example.com/a", 0, 0, none⟩ ∧
    ∃ m2, ((freshService.CreateShort schemeOf "https://example.com/a").2.CreateShort schemeOf
        "https://example.com/a").1 = .ok m2 ∧
      m2.ShortCode = "IPhmXSNu" ∧
      ((freshService.CreateShort schemeOf "https://example.com/a").2.CreateShort schemeOf
        "https://example.com/a").2.Repo.rows =
        (freshService.CreateShort schemeOf "https://example.com/a").2.Repo.rows :=
  ⟨Reachable.init (some true), by decide, by set_option maxRecDepth 100000 in decide,
   createShort_idempotent schemeOf freshService "https://example.com/a"
     ⟨1, "IPhmXSNu", "https://example.com/a", 0, 0, none⟩ (Reachable.init (some true))
     (by decide) (by set_option maxRecDepth 100000 in decide)⟩

/-- C2: in every state reachable from the empty state, with or without cache, if
`CreateShort(u)` succeeds with mapping `m` for a valid `u`, then `Resolve(m.ShortCode)`
succeeds and returns `u`. -/
theorem resolve_after_createShort (parse : String → Option URL) (s : Service) (u : String)
    (m : URLMapping) (hs : Reachable parse s) (hv : ValidateURL parse u = true)
    (h : (s.CreateShort parse u).1 = .ok m) :
    ((s.CreateShort parse u).2.Resolve m.ShortCode).1 = .ok u := by
  have _ := hv
  have hinv : Inv (s.CreateShort parse u).2 := CreateShort_inv parse s u hs.inv
  obtain ⟨hm, ho⟩ := CreateShort_ok parse s u m h
  subst ho
  exact Resolve_of_mem _ m hinv hm

/-- C2 on a new service without cache and `https://example.com/a`. -/
theorem resolve_after_createShort_witness :
    Reachable schemeOf (NewService NewRepo none) ∧
    ValidateURL schemeOf "https://example.com/a" = true ∧
    ((NewService NewRepo none).CreateShort schemeOf "https://example.com/a").1 =
      .ok ⟨1, "IPhmXSNu", "https://example.com/a", 0, 0, none⟩ ∧
    (((NewService NewRepo none).CreateShort schemeOf "https://example.com/a").2.Resolve
      "IPhmXSNu").1 = .ok "https://example.com/a" :=
  ⟨Reachable.init none, by decide, by set_option maxRecDepth 100000 in decide,
   resolve_after_createShort schemeOf (NewService NewRepo none) "https://example.com/a"
     ⟨1, "IPhmXSNu", "https://example.com/a", 0, 0, none⟩ (Reachable.init none)
     (by decide) (by set_option maxRecDepth 100000 in decide)⟩

/-- C6: for two distinct valid URLs and a reachable state, if `CreateShort(u1)` and then
`CreateShort(u2)` both succeed, the two mappings have different short codes and each
carries the URL that was submitted. -/
theorem createShort_distinct_codes (parse : String → Option URL) (s : Service)
    (u1 u2 : String) (m1 m2 : URLMapping) (hs : Reachable parse s)
    (hv1 : ValidateURL parse u1 = true) (hv2 : ValidateURL parse u2 = true) (hne : u1 ≠ u2)
    (h1 : (s.CreateShort parse u1).1 = .ok m1)
    (h2 : ((s.CreateShort parse u1).2.CreateShort parse u2).1 = .ok m2) :
    m1.ShortCode ≠ m2.ShortCode ∧ m1.OriginalURL = u1 ∧ m2.OriginalURL = u2 := by
  have _ := hv1
  have _ := hv2
  have hinv1 : Inv (s.CreateShort parse u1).2 := CreateShort_inv parse s u1 hs.inv
  have hinv2 : Inv ((s.CreateShort parse u1).2.CreateShort parse u2).2 :=
    CreateShort_inv parse _ u2 hinv1
  obtain ⟨hm1, ho1⟩ := CreateShort_ok parse s u1 m1 h1
  obtain ⟨hm2, ho2⟩ := CreateShort_ok parse _ u2 m2 h2
  obtain ⟨l, hl⟩ := CreateShort_rows parse (s.CreateShort parse u1).2 u2
  have hm1b : m1 ∈ ((s.CreateShort parse u1).2.CreateShort parse u2).2.Repo.rows := by
    rw [hl]
    exact List.mem_append_left _ hm1
  refine ⟨?_, ho1, ho2⟩
  intro hc
  have heq : m1 = m2 := hinv2.unique.eq_of_code hm1b hm2 hc
  apply hne
  rw [← ho1, ← ho2, heq]

theorem createLoop_exhausted_iff (u : String) : ∀ (n a : Nat) (s : Service),
    (Service.createLoop u n a s).1 = .error (.msg "failed to generate a unique short code") ↔
      ∀ i, i < n → AttemptContinues s u (a + i) := by
  intro n
  induction n with
  | zero =>
    intro a s
    simp [Service.createLoop]
  | succ n ih =>
    intro a s
    have hshift : (∀ i, i < n → AttemptContinues s u (a + 1 + i)) ↔
        ∀ i, 1 ≤ i → i < n + 1 → AttemptContinues s u (a + i) := by
      constructor
      · intro h i h1 h2
        have := h (i - 1) (by omega)
        have he : a + 1 + (i - 1) = a + i := by omega
        rwa [he] at this
      · intro h i hi
        have := h (i + 1) (by omega) (by omega)
        have he : a + (i + 1) = a + 1 + i := by omega
        rwa [he] at this
    have hsplit : ∀ P : Nat → Prop, (∀ i, i < n + 1 → P (a + i)) ↔
        (P a ∧ ∀ i, 1 ≤ i → i < n + 1 → P (a + i)) := by
      intro P
      constructor
      · intro h
        exact ⟨by simpa using h 0 (by omega), fun i _ h2 => h i h2⟩
      · intro h i hi
        rcases Nat.eq_zero_or_pos i with h0 | hpos
        · subst h0
          simpa using h.1
        · exact h.2 i hpos hi
    rw [hsplit (AttemptContinues s u), ← hshift, ← ih (a + 1) s]
    simp only [Service.createLoop]
    cases hg : s.Repo.GetByShortCode (DeterministicShortCode u s.ShortLen a) with
    | ok x =>
      simp only
      by_cases hx : x.OriginalURL = u
      · simp only [hx, if_true]
        constructor
        · intro h
          cases h
        · intro h
          exfalso
          rcases h.1 with ⟨m, hm, hmu⟩ | ⟨⟨e, he⟩, -⟩
          · rw [hg] at hm
            cases hm
            exact hmu hx
          · rw [hg] at he
            cases he
      · simp only [hx, if_false]
        constructor
        · intro h
          exact ⟨Or.inl ⟨x, hg, hx⟩, h⟩
        · intro h
          exact h.2
    | error e =>
      simp only
      cases hc : s.Repo.Create (DeterministicShortCode u s.ShortLen a) u with
      | error e2 =>
        simp only
        constructor
        · intro h
          exact ⟨Or.inr ⟨⟨e, hg⟩, ⟨e2, hc⟩⟩, h⟩
        · intro h
          exact h.2
      | ok p =>
        obtain ⟨created, repo⟩ := p
        constructor
        · intro h
          cases hr : s.Redis with
          | none =>
            rw [hr] at h
            cases h
          | some rc =>
            rw [hr] at h
            cases h
        · intro h
          exfalso
          rcases h.1 with ⟨m, hm, -⟩ | ⟨-, ⟨e2, he2⟩⟩
          · rw [hg] at hm
            cases hm
          · rw [hc] at he2
            cases he2

theorem GetByOriginalURL_error_of_new (r : Repo) (u : String)
    (hnew : ∀ m ∈ r.rows, m.OriginalURL ≠ u) : ∃ e, r.GetByOriginalURL u = .error e := by
  cases hg : r.GetByOriginalURL u with
  | error e => exact ⟨e, rfl⟩
  | ok m =>
    obtain ⟨hm, ho⟩ := GetByOriginalURL_ok _ _ _ hg
    exact absurd ho (hnew m hm)

/-- C7 as stated fails: on a store that fails every call, `CreateShort` of the valid and
unmapped `https://example.com/a` fails with the generation-exhausted error although no
candidate collided: the table is empty and every create is refused as `unavailable`, not
as a unique-constraint conflict. -/
theorem createShort_exhausted_counterexample :
    ValidateURL schemeOf "https://example.com/a" = true ∧
    offlineService.Repo.rows = [] ∧
    (offlineService.CreateShort schemeOf "https://example.com/a").1 =
      .error (.msg "failed to generate a unique short code") ∧
    (∀ attempt, attempt < 16 → ¬ Collided offlineService "https://example.com/a" attempt) ∧
    ∀ attempt, attempt < 16 →
      offlineService.Repo.Create
        (DeterministicShortCode "https://example.com/a" offlineService.ShortLen attempt)
        "https://example.com/a" = .error .unavailable := by
  refine ⟨by decide, rfl, by set_option maxRecDepth 100000 in decide, ?_, ?_⟩
  · intro attempt _ h
    rcases h with ⟨m, hm, -⟩ | h
    · simp [Repo.GetByShortCode, offlineService, NewService] at hm
    · simp [Repo.Create, offlineService, NewService] at h
  · intro attempt _
    simp [Repo.Create, offlineService, NewService]

/-- C7 (amended): for a valid URL with no mapping in the store, `CreateShort` fails with
the generation-exhausted error if and only if every attempt 0..15 ended in `continue`:
its candidate was already mapped to a different original, or its lookup failed and its
create failed, whatever the failure. A store failure is not told apart from a collision:
on a store that fails every call the result is the generation-exhausted error. -/
theorem createShort_exhausted_iff (parse : String → Option URL) (s : Service) (u : String)
    (hv : ValidateURL parse u = true) (hnew : ∀ m ∈ s.Repo.rows, m.OriginalURL ≠ u) :
    ((s.CreateShort parse u).1 = .error (.msg "failed to generate a unique short code") ↔
      ∀ attempt, attempt < 16 → AttemptContinues s u attempt) ∧
    (s.Repo.online = false →
      (s.CreateShort parse u).1 = .error (.msg "failed to generate a unique short code")) := by
  obtain ⟨e, he⟩ := GetByOriginalURL_error_of_new s.Repo u hnew
  have hcs : s.CreateShort parse u = Service.createLoop u 16 0 s := by
    unfold Service.CreateShort
    simp only [hv, Bool.true_eq_false, if_false, he]
  have hiff := createLoop_exhausted_iff u 16 0 s
  simp only [Nat.zero_add] at hiff
  rw [hcs]
  refine ⟨hiff, ?_⟩
  intro hoff
  rw [hiff]
  intro attempt _
  right
  exact ⟨⟨.unavailable, by simp [Repo.GetByShortCode, hoff]⟩,
    ⟨.unavailable, by simp [Repo.Create, hoff]⟩⟩

/-- C7 (amended) at three states.
On `crowdedService` the store answers, no row holds `https://example.com/a`, each of the
16 candidates is mapped to another original: every attempt ends in `continue` and the
result is the generation-exhausted error.
On `collidingService` the attempt-0 candidate `VTHuPXBD` of
`https://example.com/36685456` is mapped to another original, so attempt 0 ends in
`continue`, but the create of attempt 1 succeeds: not every attempt continues and the
result is the mapping with code `KHsitRwY`.
On `outageService` the store fails every call and the result is the generation-exhausted
error. -/
theorem createShort_exhausted_iff_witness :
    (ValidateURL schemeOf "https://example.com/a" = true ∧
      (∀ m ∈ crowdedService.Repo.rows, m.OriginalURL ≠ "https://example.com/a") ∧
      crowdedService.Repo.online = true ∧
      (crowdedService.CreateShort schemeOf "https://example.com/a").1 =
        .error (.msg "failed to generate a unique short code") ∧
      (∀ attempt, attempt < 16 →
        AttemptContinues crowdedService "https://example.com/a" attempt)) ∧
    (ValidateURL schemeOf "https://example.com/36685456" = true ∧
      (∀ m ∈ collidingService.Repo.rows, m.OriginalURL ≠ "https://example.com/36685456") ∧
      AttemptContinues collidingService "https://example.com/36685456" 0 ∧
      (collidingService.CreateShort schemeOf "https://example.com/36685456").1 =
        .ok ⟨2, "KHsitRwY", "https://example.com/36685456", 0, 0, none⟩ ∧
      ¬ (∀ attempt, attempt < 16 →
        AttemptContinues collidingService "https://example.com/36685456" attempt)) ∧
    (ValidateURL schemeOf "https://example.com/a" = true ∧
      (∀ m ∈ outageService.Repo.rows, m.OriginalURL ≠ "https://example.com/a") ∧
      outageService.Repo.online = false ∧
      (outageService.CreateShort schemeOf "https://example.com/a").1 =
        .error (.msg "failed to generate a unique short code") ∧
      (∀ attempt, attempt < 16 →
        AttemptContinues outageService "https://example.com/a" attempt)) :=
  ⟨⟨by decide, by decide, rfl, by set_option maxRecDepth 100000 in decide,
    (createShort_exhausted_iff schemeOf crowdedService "https://example.com/a" (by decide)
      (by decide)).1.mp (by set_option maxRecDepth 100000 in decide)⟩,
   ⟨by decide, by set_option maxRecDepth 100000 in decide,
    Or.inl ⟨⟨1, "VTHuPXBD", "https://example.com/2923470", 0, 0, none⟩,
      by set_option maxRecDepth 100000 in decide, by decide⟩,
    by set_option maxRecDepth 100000 in decide,
    fun hall =>
      absurd
        ((createShort_exhausted_iff schemeOf collidingService "https://example.com/36685456"
          (by decide) (by set_option maxRecDepth 100000 in decide)).1.mpr hall)
        (by set_option maxRecDepth 100000 in decide)⟩,
   ⟨by decide, by decide, rfl,
    (createShort_exhausted_iff schemeOf outageService "https://example.com/a" (by decide)
      (by decide)).2 rfl,
    (createShort_exhausted_iff schemeOf outageService "https://example.com/a" (by decide)
      (by decide)).1.mp
      ((createShort_exhausted_iff schemeOf outageService "https://example.com/a" (by decide)
        (by decide)).2 rfl)⟩⟩

/-- C6 on a new service with two URLs whose attempt-0 candidates are both `VTHuPXBD`: the
second create moves on to its attempt-1 candidate `KHsitRwY`. -/
theorem createShort_distinct_codes_witness :
    Reachable schemeOf freshService ∧
    DeterministicShortCode "https://example.com/2923470" 8 0 =
      DeterministicShortCode "https://example.com/36685456" 8 0 ∧
    (freshService.CreateShort schemeOf "https://example.com/2923470").1 =
      .ok ⟨1, "VTHuPXBD", "https://example.com/2923470", 0, 0, none⟩ ∧
    ((freshService.CreateShort schemeOf "https://example.com/2923470").2.CreateShort schemeOf
      "https://example.com/36685456").1 =
      .ok ⟨2, "KHsitRwY", "https://example.com/36685456", 0, 0, none⟩ ∧
    ("VTHuPXBD" : String) ≠ "KHsitRwY" ∧
    ("https://example.com/2923470" : String) = "https://example.com/2923470" ∧
    ("https://example.com/36685456" : String) = "https://example.com/36685456" :=
  ⟨Reachable.init (some true), by set_option maxRecDepth 100000 in decide,
   by set_option maxRecDepth 100000 in decide, by set_option maxRecDepth 100000 in decide,
   createShort_distinct_codes schemeOf freshService "https://example.com/2923470"
     "https://example.com/36685456"
     ⟨1, "VTHuPXBD", "https://example.com/2923470", 0, 0, none⟩
     ⟨2, "KHsitRwY", "https://example.com/36685456", 0, 0, none⟩
     (Reachable.init (some true)) (by decide) (by decide) (by decide)
     (by set_option maxRecDepth 100000 in decide)
     (by set_option maxRecDepth 100000 in decide)⟩

/-- C4 fails on the code. On the state after `CreateShort("https://example.com/a")`, with
the cache present and every store and cache call succeeding, two `Resolve` steps followed
by their two flushes raise the store's click count by 3, not by 2: the first flush adds
the pending 2 and deletes the counter, the second finds no counter (`redis.Nil`) and
falls back to adding 1. -/
theorem persistClick_overcounts :
    exampleService.Repo.clicks "IPhmXSNu" = 0 ∧
    (World.run ⟨exampleService, []⟩
        [.resolve "IPhmXSNu", .resolve "IPhmXSNu", .flush 0]).map
      (fun w => (w.svc.Repo.clicks "IPhmXSNu",
        w.svc.Redis.map (fun rc => rc.GetInt64 "clicks:IPhmXSNu"), w.pending)) =
      some (2, some (.error .nil), ["IPhmXSNu"]) ∧
    (World.run ⟨exampleService, []⟩
        [.resolve "IPhmXSNu", .resolve "IPhmXSNu", .flush 0, .flush 0]).map
      (fun w => (w.svc.Repo.clicks "IPhmXSNu", w.pending)) = some (3, []) := by
  set_option maxRecDepth 100000 in decide

/-! ## Claims about pagination and the rate limiter -/

/-- C8: `List(page, limit)` calls the store with `limit` unchanged when it lies in 1..100
and with 20 otherwise, and with the offset `(max(page, 1) - 1) * limit` computed in
wrapping 64-bit arithmetic; the limit passed on lies in 1..100, and `List(0, 0)` makes the
store call with offset 0 and limit 20, the same as `List(1, 20)`. -/
theorem list_clamps (s : Service) (page limit : Int) :
    s.List page limit =
      s.Repo.List
        (wrapInt64 (wrapInt64 (max page 1 - 1) *
          (if 1 ≤ limit ∧ limit ≤ 100 then limit else 20)))
        (if 1 ≤ limit ∧ limit ≤ 100 then limit else 20) ∧
    1 ≤ (if 1 ≤ limit ∧ limit ≤ 100 then limit else 20) ∧
    (if 1 ≤ limit ∧ limit ≤ 100 then limit else 20) ≤ 100 ∧
    s.List 0 0 = s.Repo.List 0 20 ∧
    s.List 0 0 = s.List 1 20 := by
  refine ⟨?_, ?_, ?_, ?_, ?_⟩
  · unfold Service.List
    have hp : (if page < 1 then 1 else page) = max page 1 := by
      split_ifs with h
      · rw [max_eq_right (by omega)]
      · rw [max_eq_left (by omega)]
    have hl : (if limit < 1 ∨ limit > 100 then 20 else limit) =
        (if 1 ≤ limit ∧ limit ≤ 100 then limit else 20) := by
      split_ifs with h1 h2 h2
      · omega
      · rfl
      · rfl
      · omega
    simp only [hp, hl]
  · split_ifs with h
    · exact h.1
    · norm_num
  · split_ifs with h
    · exact h.2
    · norm_num
  · simp [Service.List, wrapInt64]
  · simp [Service.List, wrapInt64]

theorem secondsSince_self (now : Int) : secondsSince now now = 0 := by
  simp [secondsSince, minInt64, maxInt64]

theorem allowN_countdown (now : Int) (key : String) :
    ∀ (k : Nat) (s : SimpleRateLimiter), (k : ℚ) ≤ s.burst →
      (∃ b, s.buckets key = some b ∧ b.tokens = k ∧ b.last = now) →
      (SimpleRateLimiter.allowN now key (k + 1) s).1 = List.replicate k true ++ [false] := by
  intro k
  induction k with
  | zero =>
    intro s hk hb
    obtain ⟨b, hb, ht, hl⟩ := hb
    have hburst : ¬ (0 : ℚ) > s.burst := by
      simp only [Nat.cast_zero] at hk
      exact not_lt.mpr hk
    have hone : ¬ ((0 : ℚ) ≥ 1) := by norm_num
    have hstep : (s.Allow now key).1 = false := by
      simp [SimpleRateLimiter.Allow, hb, ht, hl, secondsSince_self, hburst, hone]
    simp [SimpleRateLimiter.allowN, hstep]
  | succ k ih =>
    intro s hk hb
    obtain ⟨b, hb, ht, hl⟩ := hb
    have hburst : ¬ ((k : ℚ) + 1 > s.burst) := by
      push_cast at hk
      exact not_lt.mpr hk
    have hone : (k : ℚ) + 1 ≥ 1 := by
      have : (0 : ℚ) ≤ k := Nat.cast_nonneg k
      linarith
    have hstep : s.Allow now key = (true, s.put key ⟨(k : ℚ), now⟩) := by
      simp [SimpleRateLimiter.Allow, hb, ht, hl, secondsSince_self, hburst, hone]
    have hrec := ih (s.put key ⟨(k : ℚ), now⟩)
      (by
        push_cast at hk
        simp only [SimpleRateLimiter.put]
        linarith)
      ⟨⟨(k : ℚ), now⟩, by simp [SimpleRateLimiter.put], rfl, rfl⟩
    rw [SimpleRateLimiter.allowN]
    simp only [hstep, hrec, List.replicate_succ, List.cons_append]

/-- C5: for a limiter whose burst capacity is a positive integer and a key without a
bucket, `burst + 1` calls of `Allow(key)` that all read the same instant return true on
the first `burst` calls and false on the last. Tokens are exact rationals here; the bound
`burst ≤ 2 ^ 53` is the range in which `float64` holds every integer from 0 to `burst`
exactly, so that the code computes the same values. -/
theorem allow_burst (s : SimpleRateLimiter) (now : Int) (key : String) (burst : Nat)
    (hpos : 0 < burst) (hexact : burst ≤ 2 ^ 53) (hb : s.burst = burst)
    (hfresh : s.buckets key = none) :
    (SimpleRateLimiter.allowN now key (burst + 1) s).1 =
      List.replicate burst true ++ [false] := by
  have _ := hexact
  obtain ⟨k, rfl⟩ : ∃ k, burst = k + 1 := ⟨burst - 1, by omega⟩
  have hfirst : s.Allow now key = (true, s.put key ⟨s.burst - 1, now⟩) := by
    simp [SimpleRateLimiter.Allow, hfresh]
  have hrec := allowN_countdown now key k (s.put key ⟨s.burst - 1, now⟩)
    (by
      simp only [SimpleRateLimiter.put, hb]
      push_cast
      linarith)
    ⟨⟨s.burst - 1, now⟩, by simp [SimpleRateLimiter.put], by simp [hb], rfl⟩
  rw [SimpleRateLimiter.allowN]
  simp only [hfirst, hrec, List.replicate_succ, List.cons_append]

/-- C5 for the limiter built by `NewSimpleRateLimiter` (burst 10, rate 1): ten calls are
admitted, the eleventh is rejected. -/
theorem allow_burst_witness :
    0 < 10 ∧ 10 ≤ 2 ^ 53 ∧ NewSimpleRateLimiter.burst = (10 : Nat) ∧
    NewSimpleRateLimiter.buckets "203.0.113.7:4711" = none ∧
    (SimpleRateLimiter.allowN 1700000000000000000 "203.0.113.7:4711" (10 + 1)
      NewSimpleRateLimiter).1 = List.replicate 10 true ++ [false] :=
  ⟨by decide, by decide, by simp [NewSimpleRateLimiter], rfl,
   allow_burst NewSimpleRateLimiter 1700000000000000000 "203.0.113.7:4711" 10 (by decide)
     (by decide) (by simp [NewSimpleRateLimiter]) rfl⟩

end URLShortener
